import Mathlib

/-!
Verification of the cy_p64_cJSON engine (p64_utils).

This file gives a shallow embedding, in Lean 4, of the JSON engine found in
the repository (cy_p64_cJSON.c / cy_p64_cJSON.h).  Texts are modelled as
lists of bytes (each a Nat in 1..255); the end of the list models the NUL
terminator of the C string.  Fallible C functions returning NULL are
modelled with Except/Option; the error-pointer out-parameter of the parser
is modelled by the error payload: an Except error of none models a failure
path on which the C code never wrote to the error pointer (which the entry
point initialises to NULL), while some s models the error pointer set to
the input position whose byte suffix is s.

The parser's recursion (which in C is bounded only by the call stack) is
modelled with an explicit fuel parameter; the entry point supplies
text.length + 1 fuel, which is proved sufficient for all inputs arising in
the theorems below.
-/

/-- Byte classified as whitespace by the C skip helper: any byte <= 32
(the NUL terminator itself is the end of the list). -/
def isWsByte (c : Nat) : Bool := c ≤ 32

/-- Whitespace for strtoll (C isspace): space, tab, newline, vtab, formfeed, CR. -/
def isSpaceByte (c : Nat) : Bool :=
  c = 32 || c = 9 || c = 10 || c = 11 || c = 12 || c = 13

/-- ASCII decimal digit. -/
def isDigitByte (c : Nat) : Bool := 48 ≤ c && c ≤ 57

/-- The skip helper of cy_p64_cJSON.c: advance over bytes <= 32 until the
terminator. -/
def skip (l : List Nat) : List Nat := l.dropWhile isWsByte

/-- Value of a decimal digit list, most significant first (the accumulation
strtoll performs). -/
def digitsToNat (l : List Nat) : Nat := l.foldl (fun a c => a * 10 + (c - 48)) 0

/-- Saturate an integer into the long long range, as strtoll does on
overflow (returns LLONG_MAX / LLONG_MIN with ERANGE). -/
def satLL (z : Int) : Int := max (-(2 ^ 63)) (min (2 ^ 63 - 1) z)

/-- Model of strtoll(input, &end, 10): skip C whitespace, read an optional
sign and a maximal run of decimal digits.  Returns the (long long
saturated) value and the number of bytes consumed; zero bytes consumed
models end == input (no conversion performed). -/
def strtoll_model (l : List Nat) : Int × Nat :=
  let w := (l.takeWhile isSpaceByte).length
  let l1 := l.dropWhile isSpaceByte
  match l1 with
  | 45 :: r =>
      let ds := r.takeWhile isDigitByte
      if ds.isEmpty then (0, 0)
      else (satLL (-(digitsToNat ds : Int)), w + 1 + ds.length)
  | 43 :: r =>
      let ds := r.takeWhile isDigitByte
      if ds.isEmpty then (0, 0)
      else (satLL (digitsToNat ds : Int), w + 1 + ds.length)
  | _ =>
      let ds := l1.takeWhile isDigitByte
      if ds.isEmpty then (0, 0)
      else (satLL (digitsToNat ds : Int), w + ds.length)

/-- Exact signed integer denoted by a numeric literal (same syntax strtoll
accepts, but without the long long saturation).  This is the
specification-side "signed integer read from the text"; parse_number is
proved to compute its saturating unsigned 32-bit clamp. -/
def readExactInt (l : List Nat) : Option (Int × Nat) :=
  let w := (l.takeWhile isSpaceByte).length
  let l1 := l.dropWhile isSpaceByte
  match l1 with
  | 45 :: r =>
      let ds := r.takeWhile isDigitByte
      if ds.isEmpty then none
      else some (-(digitsToNat ds : Int), w + 1 + ds.length)
  | 43 :: r =>
      let ds := r.takeWhile isDigitByte
      if ds.isEmpty then none
      else some ((digitsToNat ds : Int), w + 1 + ds.length)
  | _ =>
      let ds := l1.takeWhile isDigitByte
      if ds.isEmpty then none
      else some ((digitsToNat ds : Int), w + ds.length)

/-- The saturating unsigned 32-bit clamp applied by parse_number:
values >= UINT32_MAX clamp to UINT32_MAX, values <= 0 clamp to 0. -/
def clampU32 (z : Int) : Nat :=
  if z ≥ 4294967295 then 4294967295
  else if z ≤ 0 then 0
  else z.toNat

/-!  The document model: the cy_p64_cJSON node.  Arrays and objects hold a
child chain (the next-linked list of children); each chain link carries the
optional name string (the string field, set for object members, NULL for
array elements). -/

mutual

inductive JNode : Type where
  | jnull : JNode
  | jfalse : JNode
  | jtrue : JNode
  | num (v : Nat) : JNode
  | str (s : List Nat) : JNode
  | raw (s : List Nat) : JNode
  | arr (cs : JChain) : JNode
  | obj (cs : JChain) : JNode
  deriving DecidableEq

inductive JChain : Type where
  | nil : JChain
  | cons (name : Option (List Nat)) (value : JNode) (tail : JChain) : JChain
  deriving DecidableEq

end

/-- Length of a child chain. -/
def JChain.clen : JChain → Nat
  | .nil => 0
  | .cons _ _ t => 1 + t.clen

/-! ## Printer (unbuffered mode: p == NULL in the C code)

cy_p64_cJSON_Print and cy_p64_cJSON_PrintUnformatted both call print_value
with p == NULL, so only the unbuffered strategy is modelled here.  The
buffered strategy writes the identical byte sequence through a growable
printbuffer and differs only in allocation behaviour. -/

/-- Decimal rendering with explicit recursion depth (always called with
enough fuel: one division step per digit). -/
def toDecAux : Nat → Nat → List Nat
  | 0, _ => []
  | f + 1, n => if n < 10 then [48 + n] else toDecAux f (n / 10) ++ [48 + n % 10]

/-- Decimal rendering of an unsigned value (sprintf %lu). -/
def toDec (n : Nat) : List Nat := toDecAux (n + 1) n

/-- print_number: the value 0 is special-cased to "0"; other values render
with sprintf %lu. -/
def print_number (v : Nat) : List Nat :=
  if v = 0 then [48] else toDec v

/-- Does this byte force print_string_ptr onto its escaping path?
Mirrors the flag computation: unprintable bytes (0 < c < 32), double
quote, backslash. -/
def escNeeded (c : Nat) : Bool := (0 < c && c < 32) || c = 34 || c = 92

/-- Lowercase hex digit byte (sprintf %x). -/
def hexDigitByte (n : Nat) : Nat := if n < 10 then 48 + n else 87 + n

/-- The bytes print_string_ptr emits for one input byte on the escaping
path: bytes > 31 other than quote and backslash are copied; the seven
named escapes cost two bytes; remaining control bytes print as u00XX
after the backslash (sprintf u%04x, lowercase). -/
def escChar (c : Nat) : List Nat :=
  if c > 31 && c ≠ 34 && c ≠ 92 then [c]
  else if c = 92 then [92, 92]
  else if c = 34 then [92, 34]
  else if c = 8 then [92, 98]
  else if c = 12 then [92, 102]
  else if c = 10 then [92, 110]
  else if c = 13 then [92, 114]
  else if c = 9 then [92, 116]
  else [92, 117, 48, 48, hexDigitByte (c / 16), hexDigitByte (c % 16)]

/-- print_string_ptr: quote-wrapped copy on the fast path (no byte needs
escaping), otherwise the escaped rendering. -/
def print_string_ptr (s : List Nat) : List Nat :=
  if s.all (fun c => !escNeeded c) then 34 :: s ++ [34]
  else 34 :: s.flatMap escChar ++ [34]

/-- Object member names go through print_string_ptr; a NULL name prints as
an empty quoted string. -/
def print_name (o : Option (List Nat)) : List Nat :=
  match o with
  | none => [34, 34]
  | some s => print_string_ptr s

mutual

/-- print_value (unbuffered): dispatch on the node type.  Raw emits the
stored text byte-for-byte. -/
def print_value (depth : Nat) (fmt : Bool) : JNode → List Nat
  | .jnull => [110, 117, 108, 108]
  | .jfalse => [102, 97, 108, 115, 101]
  | .jtrue => [116, 114, 117, 101]
  | .num v => print_number v
  | .str s => print_string_ptr s
  | .raw s => s
  | .arr cs => print_array depth fmt cs
  | .obj cs => print_object depth fmt cs
termination_by t => (sizeOf t, 2)

/-- print_array (unbuffered): empty arrays special-case to two bytes;
otherwise the bracketed, separator-joined children. -/
def print_array (depth : Nat) (fmt : Bool) : JChain → List Nat
  | .nil => [91, 93]
  | .cons n v t => 91 :: print_array_items depth fmt (.cons n v t) ++ [93]
termination_by cs => (sizeOf cs, 1)

/-- The loop body of print_array: each child at depth + 1, a comma after
every child but the last, and in fmt mode a single space after the
comma. -/
def print_array_items (depth : Nat) (fmt : Bool) : JChain → List Nat
  | .nil => []
  | .cons _ v t =>
      print_value (depth + 1) fmt v
        ++ (match t with | .nil => [] | .cons _ _ _ => 44 :: (if fmt then [32] else []))
        ++ print_array_items depth fmt t
termination_by cs => (sizeOf cs, 0)

/-- print_object (unbuffered): empty objects render two braces (with a
newline and depth tabs between them in fmt mode); otherwise brace,
optional newline, the members at depth + 1, closing tabs at depth, and
the closing brace. -/
def print_object (depth : Nat) (fmt : Bool) : JChain → List Nat
  | .nil =>
      if fmt then 123 :: 10 :: (List.replicate depth 9 ++ [125]) else [123, 125]
  | .cons n v t =>
      (if fmt then [123, 10] else [123])
        ++ print_object_items (depth + 1) fmt (.cons n v t)
        ++ (if fmt then List.replicate depth 9 else []) ++ [125]
termination_by cs => (sizeOf cs, 1)

/-- The loop body of print_object: per member, leading tabs in fmt mode,
the printed name, a colon (plus a tab in fmt mode), the value, a comma
after every member but the last, and a newline in fmt mode. -/
def print_object_items (depth : Nat) (fmt : Bool) : JChain → List Nat
  | .nil => []
  | .cons nm v t =>
      (if fmt then List.replicate depth 9 else []) ++ print_name nm ++ [58]
        ++ (if fmt then [9] else []) ++ print_value depth fmt v
        ++ (match t with | .nil => [] | .cons _ _ _ => [44])
        ++ (if fmt then [10] else [])
        ++ print_object_items depth fmt t
termination_by cs => (sizeOf cs, 0)

end

/-- cy_p64_cJSON_Print: formatted, depth 0. -/
def cy_p64_cJSON_Print (t : JNode) : List Nat := print_value 0 true t

/-- cy_p64_cJSON_PrintUnformatted: compact, depth 0. -/
def cy_p64_cJSON_PrintUnformatted (t : JNode) : List Nat := print_value 0 false t

/-! ## Parser -/

/-- A parse outcome: ok carries the result and the remaining input suffix;
error carries the final value of the error pointer (none models the NULL
the entry point initialised it to, some s models a pointer to the input
position whose remaining bytes are s). -/
abbrev PRes (α : Type) := Except (Option (List Nat)) α

/-- Value of one hex digit byte, as accepted by parse_hex4. -/
def hexVal (c : Nat) : Option Nat :=
  if 48 ≤ c ∧ c ≤ 57 then some (c - 48)
  else if 65 ≤ c ∧ c ≤ 70 then some (10 + c - 65)
  else if 97 ≤ c ∧ c ≤ 102 then some (10 + c - 97)
  else none

/-- parse_hex4: the value of four hex digit bytes; any invalid digit makes
the whole call return 0 (the C code conflates this with the value 0). -/
def parse_hex4 (a b c d : Nat) : Nat :=
  match hexVal a, hexVal b, hexVal c, hexVal d with
  | some va, some vb, some vc, some vd => 4096 * va + 256 * vb + 16 * vc + vd
  | _, _, _, _ => 0

/-- The bytes utf16_literal_to_utf8 writes for a decoded codepoint.  The C
switch is missing the fall-through of upstream cJSON: each case breaks, so
for multi-byte encodings only the LAST byte of the sequence (the first one
written, at index length - 1) is stored and the leading bytes of the
sequence keep whatever the allocator left there; those uninitialised bytes
are modelled as 0 here.  For a one-byte encoding, the byte written is
codepoint | firstByteMark[1] = codepoint. -/
def utf8_written (cp : Nat) : List Nat :=
  if cp < 128 then [cp]
  else if cp < 2048 then [0, 128 + cp % 64]
  else if cp < 65536 then [0, 0, 128 + cp % 64]
  else [0, 0, 0, 128 + cp % 64]

/-- utf16_literal_to_utf8: rem is the number of bytes between the
backslash and the closing quote found by the pre-scan (input_end -
first_sequence); l is the remaining input starting at the backslash.
Returns the bytes written and the sequence length consumed (6 or 12);
every failure path stores first_sequence into the error pointer.  The
list patterns that cannot hold when rem is within the input are mapped to
an error with an untouched error pointer. -/
def utf16_literal_to_utf8 (rem : Nat) (l : List Nat) : PRes (List Nat × Nat) :=
  if rem < 6 then .error (some l)
  else
    match l with
    | 92 :: 117 :: d1 :: d2 :: d3 :: d4 :: rest =>
        let fc := parse_hex4 d1 d2 d3 d4
        if (56320 ≤ fc ∧ fc ≤ 57343) ∨ fc = 0 then .error (some l)
        else if 55296 ≤ fc ∧ fc ≤ 56319 then
          if rem < 12 then .error (some l)
          else
            match rest with
            | 92 :: 117 :: e1 :: e2 :: e3 :: e4 :: _ =>
                let sc := parse_hex4 e1 e2 e3 e4
                if sc < 56320 ∨ 57343 < sc then .error (some l)
                else
                  .ok (utf8_written (65536 + ((fc % 1024) * 1024 + sc % 1024)), 12)
            | _ => .error (some l)
        else .ok (utf8_written fc, 6)
    | _ => .error none

/-- The pre-scan of parse_string: starting just after the opening quote,
find the closing quote, skipping the byte after every backslash; returns
the number of bytes before the closing quote, or none when the input ends
(at the terminator) first or ends right after a backslash. -/
def parse_string_scan : List Nat → Option Nat
  | [] => none
  | 34 :: _ => some 0
  | 92 :: [] => none
  | 92 :: _ :: r => (parse_string_scan r).map (· + 2)
  | _ :: r => (parse_string_scan r).map (· + 1)

/-- The copy loop of parse_string: rem counts the bytes left before the
closing quote (input_end - input_pointer), l is the remaining input.
Ordinary bytes are copied; after a backslash the named escapes b f n r t
quote backslash slash produce their byte, u defers to the UTF-16 decoder,
and any other byte stores the position of the backslash in the error
pointer and fails.  List shapes that contradict rem (the scan guarantees
rem bytes are present) are mapped to an error with an untouched pointer. -/
def parse_string_loop (rem : Nat) (l : List Nat) : PRes (List Nat) :=
  match rem, l with
  | 0, _ => .ok []
  | _ + 1, [] => .error none
  | r' + 1, 92 :: l2 =>
      match l2 with
      | [] => .error none
      | 98 :: l3 => (parse_string_loop (r' - 1) l3).map (fun s => 8 :: s)
      | 102 :: l3 => (parse_string_loop (r' - 1) l3).map (fun s => 12 :: s)
      | 110 :: l3 => (parse_string_loop (r' - 1) l3).map (fun s => 10 :: s)
      | 114 :: l3 => (parse_string_loop (r' - 1) l3).map (fun s => 13 :: s)
      | 116 :: l3 => (parse_string_loop (r' - 1) l3).map (fun s => 9 :: s)
      | 34 :: l3 => (parse_string_loop (r' - 1) l3).map (fun s => 34 :: s)
      | 92 :: l3 => (parse_string_loop (r' - 1) l3).map (fun s => 92 :: s)
      | 47 :: l3 => (parse_string_loop (r' - 1) l3).map (fun s => 47 :: s)
      | 117 :: l3 =>
          match utf16_literal_to_utf8 (r' + 1) (92 :: 117 :: l3) with
          | .error e => .error e
          | .ok (bytes, slen) =>
              (parse_string_loop (r' + 1 - slen) ((117 :: l3).drop (slen - 1))).map
                (fun s => bytes ++ s)
      | c :: l3 => .error (some (92 :: c :: l3))
  | _ + 1, c :: l2 => (parse_string_loop rem.pred l2).map (fun s => c :: s)
termination_by l.length
decreasing_by
  all_goals simp_all [List.length_drop]
  all_goals omega

/-- parse_string: reject unless the input starts with a quote (storing the
position), run the pre-scan (whose failures leave the error pointer
untouched), then the copy loop; on success return the unescaped bytes and
the input after the closing quote. -/
def parse_string (input : List Nat) : PRes (List Nat × List Nat) :=
  match input with
  | 34 :: r =>
      match parse_string_scan r with
      | none => .error none
      | some n => (parse_string_loop n r).map (fun s => (s, r.drop (n + 1)))
  | _ => .error (some input)

/-- parse_number: run strtoll; if no bytes were consumed the C code
returns NULL without touching the error pointer; otherwise saturate into
the unsigned 32-bit value field (>= UINT32_MAX clamps to UINT32_MAX,
<= 0 clamps to 0) and build a Number node. -/
def parse_number (l : List Nat) : PRes (JNode × List Nat) :=
  let zc := strtoll_model l
  if zc.2 = 0 then .error none
  else
    .ok (JNode.num (if zc.1 ≥ 4294967295 then 4294967295
                    else if zc.1 ≤ 0 then 0
                    else zc.1.toNat), l.drop zc.2)

/-- strncmp(input, lit, n) == 0 for the literal tokens: every byte of the
literal must be present and equal (a shorter input ends in the terminator,
which compares unequal to a literal byte). -/
def litMatch : List Nat → List Nat → Bool
  | [], _ => true
  | _ :: _, [] => false
  | a :: la, b :: lb => a = b && litMatch la lb

mutual

/-- parse_value: dispatch on the literal prefixes null / false / true,
then on the lookahead byte: quote to parse_string, minus or digit to
parse_number, brackets to the array and object parsers; any other byte
(and the terminator) stores the position and fails.  Fuel models the
C call stack; 0 fuel fails with an untouched error pointer. -/
def parse_value : Nat → List Nat → PRes (JNode × List Nat)
  | 0, _ => .error none
  | f + 1, input =>
      if litMatch [110, 117, 108, 108] input then .ok (.jnull, input.drop 4)
      else if litMatch [102, 97, 108, 115, 101] input then .ok (.jfalse, input.drop 5)
      else if litMatch [116, 114, 117, 101] input then .ok (.jtrue, input.drop 4)
      else
        match input with
        | 34 :: _ => (parse_string input).map (fun sr => (JNode.str sr.1, sr.2))
        | c :: _ =>
            if c = 45 ∨ (48 ≤ c ∧ c ≤ 57) then parse_number input
            else if c = 91 then parse_array f input
            else if c = 123 then parse_object f input
            else .error (some input)
        | [] => .error (some [])
termination_by f _ => (f, 2)

/-- parse_array: require the opening bracket (storing the position
otherwise), skip whitespace, special-case the empty array, otherwise run
the element loop. -/
def parse_array (f : Nat) (input : List Nat) : PRes (JNode × List Nat) :=
  match input with
  | 91 :: r =>
      match skip r with
      | 93 :: r2 => .ok (.arr .nil, r2)
      | r1 => (parse_array_items f r1).map (fun cr => (JNode.arr cr.1, cr.2))
  | _ => .error (some input)
termination_by (f, 1)

/-- The do-while of parse_array: parse one value, skip whitespace, then a
comma continues the loop (after skipping whitespace) and a closing
bracket ends it; anything else stores the position and fails.  Array
elements carry no name. -/
def parse_array_items : Nat → List Nat → PRes (JChain × List Nat)
  | 0, _ => .error none
  | f + 1, input =>
      match parse_value f input with
      | .error e => .error e
      | .ok (v, r) =>
          match skip r with
          | 44 :: r2 =>
              (parse_array_items f (skip r2)).map
                (fun cr => (JChain.cons none v cr.1, cr.2))
          | 93 :: r2 => .ok (.cons none v .nil, r2)
          | r1 => .error (some r1)
termination_by f _ => (f, 0)

/-- parse_object: require the opening brace (storing the position
otherwise), skip whitespace, special-case the empty object, otherwise run
the member loop. -/
def parse_object (f : Nat) (input : List Nat) : PRes (JNode × List Nat) :=
  match input with
  | 123 :: r =>
      match skip r with
      | 125 :: r2 => .ok (.obj .nil, r2)
      | r1 => (parse_object_items f r1).map (fun cr => (JNode.obj cr.1, cr.2))
  | _ => .error (some input)
termination_by (f, 1)

/-- The do-while of parse_object: parse a quoted key with parse_string
(the parsed text is relocated to the name slot), skip whitespace, require
a colon (storing the position otherwise), skip whitespace, parse the
value, skip whitespace; a comma continues the loop and a closing brace
ends it; anything else stores the position and fails. -/
def parse_object_items : Nat → List Nat → PRes (JChain × List Nat)
  | 0, _ => .error none
  | f + 1, input =>
      match parse_string input with
      | .error e => .error e
      | .ok (nm, r) =>
          match skip r with
          | 58 :: r2 =>
              match parse_value f (skip r2) with
              | .error e => .error e
              | .ok (v, r3) =>
                  match skip r3 with
                  | 44 :: r4 =>
                      (parse_object_items f (skip r4)).map
                        (fun cr => (JChain.cons (some nm) v cr.1, cr.2))
                  | 125 :: r4 => .ok (.cons (some nm) v .nil, r4)
                  | r5 => .error (some r5)
          | r1 => .error (some r1)
termination_by f _ => (f, 0)

end

/-- cy_p64_cJSON_ParseWithOpts: the error pointer starts as NULL; parse a
value from the whitespace-skipped input; when require_null_terminated is
set, whitespace-skip the remainder and fail (storing the position) unless
the terminator was reached.  The fuel passed models the C call stack; the
round-trip theorems prove length + 1 suffices for printed trees. -/
def cy_p64_cJSON_ParseWithOpts (text : List Nat) (require_null_terminated : Bool) :
    PRes (JNode × List Nat) :=
  match parse_value (text.length + 1) (skip text) with
  | .error e => .error e
  | .ok (t, rest) =>
      if require_null_terminated then
        match skip rest with
        | [] => .ok (t, [])
        | e => .error (some e)
      else .ok (t, rest)

/-- cy_p64_cJSON_Parse: default options (no required termination, residual
pointer ignored). -/
def cy_p64_cJSON_Parse (text : List Nat) : PRes JNode :=
  match cy_p64_cJSON_ParseWithOpts text false with
  | .error e => .error e
  | .ok (t, _) => .ok t

/-! ## cy_p64_cJSON_GetArrayItem -/

/-- The sibling walk of cy_p64_cJSON_GetArrayItem over the child chain:
while (c && item > 0) { item--; c = c->next; } return c.  The index is
the C int argument, so it can be negative, in which case the loop exits
immediately at the first child. -/
def getArrayItem_walk : JChain → Int → Option JNode
  | .nil, _ => none
  | .cons _ v t, i => if i > 0 then getArrayItem_walk t (i - 1) else some v

/-- cy_p64_cJSON_GetArrayItem on an array node's child chain (a NULL array
argument yields NULL before the walk). -/
def cy_p64_cJSON_GetArrayItem (array : Option JChain) (item : Int) : Option JNode :=
  match array with
  | none => none
  | some cs => getArrayItem_walk cs item

/-- The values of a chain in sibling order (for stating the corrected
claim about in-range indices). -/
def chainVals : JChain → List JNode
  | .nil => []
  | .cons _ v t => v :: chainVals t

/-! ## cy_p64_cJSON_Delete and reference nodes

Deletion is about which heap allocations are released, so the node model
here carries allocation identities: every node has an id (its own malloc
cell), and the valuestring / string fields are ids of string allocations
(none models a NULL pointer).  The type field is the C bitmask; bit 0x100
is CY_P64_cJSON_IsReference and bit 0x200 is CY_P64_cJSON_StringIsConst. -/

inductive CNode : Type where
  | mk (id : Nat) (ty : Nat) (valuestring : Option Nat) (string : Option Nat)
      (children : List CNode)

def CNode.cid : CNode → Nat | .mk i _ _ _ _ => i
def CNode.cty : CNode → Nat | .mk _ t _ _ _ => t

mutual

/-- The allocations cy_p64_cJSON_Delete releases for one node (the C
function takes a chain and walks next; deleteChain below is that walk):
the child subtree unless IsReference is set, the valuestring unless
IsReference is set, the string unless StringIsConst is set, then the node
cell itself. -/
def deleteFreed : CNode → List Nat
  | .mk id ty vs ns ch =>
      (if ty &&& 256 = 0 then deleteChain ch else [])
        ++ (if ty &&& 256 = 0 then vs.toList else [])
        ++ (if ty &&& 512 = 0 then ns.toList else [])
        ++ [id]

/-- cy_p64_cJSON_Delete on a sibling chain. -/
def deleteChain : List CNode → List Nat
  | [] => []
  | c :: r => deleteFreed c ++ deleteChain r

end

mutual

/-- Every allocation reachable inside a subtree (node cells and both
string cells, flags ignored): the footprint that must survive when the
subtree is only borrowed. -/
def nodeAllocs : CNode → List Nat
  | .mk id _ vs ns ch => id :: (vs.toList ++ ns.toList ++ chainAllocs ch)

def chainAllocs : List CNode → List Nat
  | [] => []
  | c :: r => nodeAllocs c ++ chainAllocs r

end

/-- create_reference: a fresh node cell holding a shallow copy of the
item with the string field cleared, IsReference or-ed into the type and
the sibling links cleared. -/
def create_reference (freshId : Nat) : CNode → CNode
  | .mk _ ty vs _ ch => .mk freshId (ty ||| 256) vs none ch

/-- cy_p64_cJSON_AddItemReferenceToArray: wrap the item in a reference
node and append it to the array's child chain. -/
def cy_p64_cJSON_AddItemReferenceToArray (freshId : Nat) (array : CNode) (item : CNode) :
    CNode :=
  match array with
  | .mk id ty vs ns ch => .mk id ty vs ns (ch ++ [create_reference freshId item])

/-! ## cy_p64_cJSON_Minify

Minify edits the buffer in place; the model maps the input byte list to
the output byte list.  The C code can run past the NUL terminator (an
unterminated block comment skips the terminator with json += 2; an
unterminated string literal copies the terminator and keeps scanning);
those undefined executions are modelled as none. -/

/-- Double-slash comment skip: stop at the newline (handled as whitespace
by the next iteration) or at the terminator. -/
def minify_skipLine (l : List Nat) : List Nat := l.dropWhile (fun c => c ≠ 10)

/-- Block comment skip: the input after the first star-slash pair; none
when the comment never closes (the C code then walks past the
terminator). -/
def minify_findBlockEnd : List Nat → Option (List Nat)
  | [] => none
  | 42 :: 47 :: r => some r
  | _ :: r => minify_findBlockEnd r

/-- String literal copy: returns the bytes strictly between the quotes
(escaped pairs copied verbatim) and the input after the closing quote;
none when the string never closes or a backslash is the last byte (the C
code then copies the terminator and keeps scanning past it). -/
def minify_takeStr : List Nat → Option (List Nat × List Nat)
  | [] => none
  | 34 :: r => some ([], r)
  | 92 :: [] => none
  | 92 :: c :: r => (minify_takeStr r).map (fun p => (92 :: c :: p.1, p.2))
  | c :: r => (minify_takeStr r).map (fun p => (c :: p.1, p.2))

theorem minify_findBlockEnd_length : ∀ l r : List Nat,
    minify_findBlockEnd l = some r → r.length ≤ l.length := by
  have main : ∀ n, ∀ l : List Nat, l.length ≤ n → ∀ r : List Nat,
      minify_findBlockEnd l = some r → r.length ≤ l.length := by
    intro n
    induction n with
    | zero =>
        intro l hl r h
        rcases l with - | ⟨a, t⟩
        · simp [minify_findBlockEnd] at h
        · simp at hl
    | succ n ih =>
        intro l hl r h
        rw [minify_findBlockEnd.eq_def] at h
        split at h
        · simp at h
        · rename_i r2
          injection h with h2
          subst h2
          simp; omega
        · rename_i hd r2 hne
          have hlen : r2.length ≤ n := by simp at hl; omega
          have := ih r2 hlen r h
          simp; omega
  intro l r h
  exact main l.length l le_rfl r h

theorem minify_takeStr_length : ∀ l s r : List Nat,
    minify_takeStr l = some (s, r) → r.length < l.length := by
  have main : ∀ n, ∀ l : List Nat, l.length ≤ n → ∀ s r : List Nat,
      minify_takeStr l = some (s, r) → r.length < l.length := by
    intro n
    induction n with
    | zero =>
        intro l hl s r h
        rcases l with - | ⟨a, t⟩
        · simp [minify_takeStr] at h
        · simp at hl
    | succ n ih =>
        intro l hl s r h
        rw [minify_takeStr.eq_def] at h
        split at h
        · simp at h
        · rename_i t
          simp only [Option.some.injEq, Prod.mk.injEq] at h
          obtain ⟨h5, h6⟩ := h
          subst h6
          simp
        · simp at h
        · rename_i c r2
          rcases h4 : minify_takeStr r2 with - | ⟨s2, r3⟩ <;> rw [h4] at h
          · simp at h
          · simp only [Option.map_some', Option.some.injEq, Prod.mk.injEq] at h
            obtain ⟨h5, h6⟩ := h
            subst h6
            have hlen : r2.length ≤ n := by simp at hl; omega
            have := ih r2 hlen s2 r3 h4
            simp only [List.length_cons]
            omega
        · rename_i c r2 hne1 hne2 hne3
          rcases h4 : minify_takeStr r2 with - | ⟨s2, r3⟩ <;> rw [h4] at h
          · simp at h
          · simp only [Option.map_some', Option.some.injEq, Prod.mk.injEq] at h
            obtain ⟨h5, h6⟩ := h
            subst h6
            have hlen : r2.length ≤ n := by simp at hl; omega
            have := ih r2 hlen s2 r3 h4
            simp only [List.length_cons]
            omega
  intro l s r h
  exact main l.length l le_rfl s r h

/-- cy_p64_cJSON_Minify: drop space, tab, CR and LF; strip double-slash
comments up to the newline and block comments past the closing star-slash;
copy string literals verbatim including the quotes and escape pairs; copy
every other byte.  none models the executions in which the C code walks
past the NUL terminator (unterminated block comment or string literal). -/
def cy_p64_cJSON_Minify : List Nat → Option (List Nat)
  | [] => some []
  | 32 :: r => cy_p64_cJSON_Minify r
  | 9 :: r => cy_p64_cJSON_Minify r
  | 13 :: r => cy_p64_cJSON_Minify r
  | 10 :: r => cy_p64_cJSON_Minify r
  | 47 :: 47 :: r => cy_p64_cJSON_Minify (minify_skipLine r)
  | 47 :: 42 :: r =>
      match h : minify_findBlockEnd r with
      | none => none
      | some r2 => cy_p64_cJSON_Minify r2
  | 34 :: r =>
      match h : minify_takeStr r with
      | none => none
      | some (s, r2) => (cy_p64_cJSON_Minify r2).map (fun m => 34 :: (s ++ 34 :: m))
  | c :: r => (cy_p64_cJSON_Minify r).map (fun m => c :: m)
termination_by l => l.length
decreasing_by
  all_goals simp only [List.length_cons, minify_skipLine]
  · omega
  · omega
  · omega
  · omega
  · have := (List.dropWhile_suffix (l := r) (fun c => decide (c ≠ 10))).length_le
    omega
  · have := minify_findBlockEnd_length _ _ h
    omega
  · have := minify_takeStr_length _ _ _ h
    omega
  · omega

/-- No whitespace byte outside string literals, and every string literal
terminated: the shape cy_p64_cJSON_Minify guarantees for its output. -/
def minify_wsClean : List Nat → Bool
  | [] => true
  | 34 :: r =>
      match h : minify_takeStr r with
      | none => false
      | some (_, r2) => minify_wsClean r2
  | c :: r => !(c = 32 || c = 9 || c = 13 || c = 10) && minify_wsClean r
termination_by l => l.length
decreasing_by
  all_goals simp only [List.length_cons]
  · have := minify_takeStr_length _ _ _ h
    omega
  · omega

/-- No comment opener (double slash or slash-star) outside string
literals, with every string literal terminated. -/
def minify_noComments : List Nat → Bool
  | [] => true
  | 34 :: r =>
      match h : minify_takeStr r with
      | none => false
      | some (_, r2) => minify_noComments r2
  | 47 :: 47 :: _ => false
  | 47 :: 42 :: _ => false
  | _ :: r => minify_noComments r
termination_by l => l.length
decreasing_by
  all_goals simp only [List.length_cons]
  · have := minify_takeStr_length _ _ _ h
    omega
  · omega

/-! ## Number lemmas -/

theorem toDecAux_digits : ∀ f n, n < f → ∀ c ∈ toDecAux f n, 48 ≤ c ∧ c ≤ 57 := by
  intro f
  induction f with
  | zero => intro n hn; omega
  | succ f ih =>
      intro n hn c hc
      rw [toDecAux] at hc
      split at hc
      · rename_i h
        simp at hc
        omega
      · rename_i h
        rw [List.mem_append] at hc
        rcases hc with hc | hc
        · exact ih (n / 10) (by omega) c hc
        · simp at hc
          have := Nat.mod_lt n (y := 10) (by omega)
          omega

theorem toDec_digits (n : Nat) : ∀ c ∈ toDec n, 48 ≤ c ∧ c ≤ 57 :=
  toDecAux_digits (n + 1) n (by omega)

theorem toDec_ne_nil (n : Nat) : toDec n ≠ [] := by
  rw [toDec, toDecAux]
  split <;> simp

theorem digitsToNat_append (l : List Nat) (x : Nat) :
    digitsToNat (l ++ [x]) = digitsToNat l * 10 + (x - 48) := by
  simp [digitsToNat, List.foldl_append]

theorem toDecAux_fuel : ∀ f g n, n < f → n < g → toDecAux f n = toDecAux g n := by
  intro f
  induction f with
  | zero => intro g n hn; omega
  | succ f ih =>
      intro g n hf hg
      rcases g with - | g
      · omega
      rw [toDecAux, toDecAux]
      split
      · rfl
      · rename_i h
        rw [ih g (n / 10) (by omega) (by omega)]

theorem digitsToNat_toDec : ∀ n, digitsToNat (toDec n) = n := by
  have aux : ∀ f n, n < f → digitsToNat (toDecAux f n) = n := by
    intro f
    induction f with
    | zero => intro n hn; omega
    | succ f ih =>
        intro n hn
        rw [toDecAux]
        split
        · rename_i h
          simp [digitsToNat]
        · rename_i h
          rw [digitsToNat_append, ih (n / 10) (by omega)]
          omega
  intro n
  exact aux (n + 1) n (by omega)

theorem takeWhile_append_all {p : Nat → Bool} {a : List Nat} (b : List Nat)
    (h : ∀ c ∈ a, p c) : (a ++ b).takeWhile p = a ++ b.takeWhile p := by
  induction a with
  | nil => simp
  | cons x t ih =>
      simp only [List.cons_append, List.takeWhile_cons]
      rw [h x (by simp)]
      simp only [ite_true]
      rw [ih (fun c hc => h c (by simp [hc]))]

theorem dropWhile_append_all {p : Nat → Bool} {a : List Nat} (b : List Nat)
    (h : ∀ c ∈ a, p c) : (a ++ b).dropWhile p = b.dropWhile p := by
  induction a with
  | nil => simp
  | cons x t ih =>
      simp only [List.cons_append, List.dropWhile_cons]
      rw [h x (by simp)]
      simp only [ite_true]
      exact ih (fun c hc => h c (by simp [hc]))

theorem takeWhile_not_head {p : Nat → Bool} : ∀ {b : List Nat},
    (∀ c, b.head? = some c → p c = false) → b.takeWhile p = [] := by
  intro b h
  rcases b with - | ⟨x, t⟩
  · simp
  · simp only [List.takeWhile_cons]
    rw [h x rfl]
    simp

/-- A list whose head cannot extend a digit run. -/
def numGuard (rest : List Nat) : Prop :=
  ∀ c, rest.head? = some c → isDigitByte c = false

theorem strtoll_digits {a : List Nat} (rest : List Nat) (ha : a ≠ [])
    (hd : ∀ c ∈ a, isDigitByte c) (hrest : numGuard rest) :
    strtoll_model (a ++ rest) = (satLL (digitsToNat a), a.length) := by
  rcases a with - | ⟨d, ta⟩
  · exact absurd rfl ha
  have hdd : isDigitByte d := hd d (by simp)
  have hds : isSpaceByte d = false := by
    simp only [isDigitByte, Bool.and_eq_true, decide_eq_true_eq] at hdd
    simp [isSpaceByte]
    omega
  have hdrop : ((d :: ta) ++ rest).dropWhile isSpaceByte = d :: (ta ++ rest) := by
    simp only [List.cons_append, List.dropWhile_cons, hds]
    simp
  have htake : ((d :: ta) ++ rest).takeWhile isSpaceByte = [] := by
    simp only [List.cons_append, List.takeWhile_cons, hds]
    simp
  have htdig : (d :: (ta ++ rest)).takeWhile isDigitByte = d :: ta := by
    have : ((d :: ta) ++ rest).takeWhile isDigitByte = (d :: ta) ++ rest.takeWhile isDigitByte :=
      takeWhile_append_all rest hd
    rw [takeWhile_not_head (p := isDigitByte) hrest] at this
    simpa using this
  have h45 : d ≠ 45 := by
    simp only [isDigitByte, Bool.and_eq_true, decide_eq_true_eq] at hdd
    omega
  have h43 : d ≠ 43 := by
    simp only [isDigitByte, Bool.and_eq_true, decide_eq_true_eq] at hdd
    omega
  rw [strtoll_model]
  rw [htake, hdrop]
  split
  · rename_i r heq
    injection heq with e1 e2
    exact absurd e1 h45
  · rename_i r heq
    injection heq with e1 e2
    exact absurd e1 h43
  · rename_i hn1 hn2
    rw [htdig]
    simp

theorem strtoll_of_readExact {l : List Nat} {z : Int} {c : Nat}
    (h : readExactInt l = some (z, c)) : strtoll_model l = (satLL z, c) := by
  rw [readExactInt] at h
  rw [strtoll_model]
  split at h
  · rename_i r heq
    dsimp only [] at h ⊢
    split at h
    · simp at h
    · rename_i hne
      simp only [Option.some.injEq, Prod.mk.injEq] at h
      obtain ⟨h1, h2⟩ := h
      simp only [hne, ite_false, ← h1, ← h2]
      simp
  · rename_i r heq
    dsimp only [] at h ⊢
    split at h
    · simp at h
    · rename_i hne
      simp only [Option.some.injEq, Prod.mk.injEq] at h
      obtain ⟨h1, h2⟩ := h
      simp only [hne, ite_false, ← h1, ← h2]
      simp
  · rename_i hn1 hn2
    dsimp only [] at h ⊢
    split at h
    · simp at h
    · rename_i hne
      simp only [Option.some.injEq, Prod.mk.injEq] at h
      obtain ⟨h1, h2⟩ := h
      simp only [hne, ite_false, ← h1, ← h2]
      simp

theorem readExact_consumed_pos {l : List Nat} {z : Int} {c : Nat}
    (h : readExactInt l = some (z, c)) : 0 < c := by
  rw [readExactInt] at h
  split at h <;> dsimp only [] at h <;> split at h <;>
    first
    | (simp at h; done)
    | (rename_i hne
       simp only [Option.some.injEq, Prod.mk.injEq] at h
       obtain ⟨-, h2⟩ := h
       simp only [List.isEmpty_iff] at hne
       have hpos := List.length_pos.mpr hne
       omega)

theorem satLL_clamp (z : Int) :
    (if satLL z ≥ 4294967295 then (4294967295 : Nat)
     else if satLL z ≤ 0 then 0 else (satLL z).toNat) = clampU32 z := by
  rw [satLL, clampU32, max_def, min_def]
  split_ifs <;> omega

/-- C2: for every numeric literal, the parsed Number node's value is the
saturating unsigned 32-bit clamp of the signed integer read from the text:
values above the maximum clamp to 4294967295 and values at most 0 clamp
to 0 (the witness instantiates the literals 4294967296 and -5). -/
theorem claim_C2_number_saturation {l : List Nat} {z : Int} {c : Nat}
    (h : readExactInt l = some (z, c)) :
    parse_number l = .ok (JNode.num (clampU32 z), l.drop c) := by
  have hs := strtoll_of_readExact h
  have hc := readExact_consumed_pos h
  simp only [parse_number, hs]
  rw [if_neg (by omega)]
  rw [satLL_clamp]

/-- Witness for C2 at the spec's two concrete literals. -/
theorem claim_C2_witness :
    (readExactInt [52, 50, 57, 52, 57, 54, 55, 50, 57, 54] = some (4294967296, 10) ∧
      parse_number [52, 50, 57, 52, 57, 54, 55, 50, 57, 54] =
        .ok (JNode.num (clampU32 4294967296), [52, 50, 57, 52, 57, 54, 55, 50, 57, 54].drop 10) ∧
      clampU32 4294967296 = 4294967295) ∧
    (readExactInt [45, 53] = some (-5, 2) ∧
      parse_number [45, 53] = .ok (JNode.num (clampU32 (-5)), [45, 53].drop 2) ∧
      clampU32 (-5) = 0) :=
  ⟨⟨by decide, claim_C2_number_saturation (by decide), by decide⟩,
   ⟨by decide, claim_C2_number_saturation (by decide), by decide⟩⟩

theorem satLL_small {v : Nat} (hv : v < 4294967296) : satLL (v : Int) = (v : Int) := by
  rw [satLL, max_def, min_def]
  split_ifs <;> omega

/-- parse_number inverts print_number for every representable value, when
the following byte cannot extend the digit run. -/
theorem parse_number_print (v : Nat) (hv : v < 4294967296) (rest : List Nat)
    (hrest : numGuard rest) :
    parse_number (print_number v ++ rest) = .ok (JNode.num v, rest) := by
  rcases Nat.eq_zero_or_pos v with rfl | hpos
  · have hs := strtoll_digits (a := [48]) rest (by simp) (by intro c hc; simp at hc; simp [hc, isDigitByte]) hrest
    simp only [print_number, ite_true, parse_number, hs]
    rw [if_neg (by simp)]
    norm_num [digitsToNat, satLL]
  · have hs := strtoll_digits (a := toDec v) rest (toDec_ne_nil v)
      (by
        intro c hc
        have := toDec_digits v c hc
        simp [isDigitByte]
        omega) hrest
    have hpn : print_number v = toDec v := by
      rw [print_number, if_neg (by omega)]
    rw [hpn]
    simp only [parse_number, hs, digitsToNat_toDec]
    rw [if_neg (by
      have := toDec_ne_nil v
      have := List.length_pos.mpr this
      omega)]
    rw [satLL_small hv, List.drop_left]
    have : (if (v : Int) ≥ 4294967295 then (4294967295 : Nat)
            else if (v : Int) ≤ 0 then 0 else (v : Int).toNat) = v := by
      split_ifs <;> omega
    rw [this]

/-- Tail induction for child chains (the mutual recursor specialised to a
chain-only motive; values are not recursed into). -/
theorem JChain.tail_induction (motive : JChain → Prop) (h0 : motive JChain.nil)
    (h1 : ∀ nm v t, motive t → motive (JChain.cons nm v t)) : ∀ cs, motive cs := by
  have main : ∀ n, ∀ cs : JChain, sizeOf cs ≤ n → motive cs := by
    intro n
    induction n with
    | zero =>
        intro cs h
        rcases cs with - | ⟨nm, v, t⟩
        · exact h0
        · simp at h
    | succ n ih =>
        intro cs h
        rcases cs with - | ⟨nm, v, t⟩
        · exact h0
        · refine h1 nm v t (ih t ?_)
          simp at h
          omega
  intro cs
  exact main (sizeOf cs) cs le_rfl

/-! ## C8: cy_p64_cJSON_GetArrayItem -/

/-- C8 counterexample: the index -1 is not the position of any existing
child, yet cy_p64_cJSON_GetArrayItem returns the first child rather than
NULL, because the sibling walk stops as soon as the counter is not
positive. -/
theorem claim_C8_counterexample :
    cy_p64_cJSON_GetArrayItem (some (JChain.cons none (JNode.num 5) JChain.nil)) (-1)
      = some (JNode.num 5) ∧ ((-1 : Int) < 0 ∧ (-1 : Int) ≠ 0) := by
  constructor
  · rfl
  · constructor <;> decide

/-- C8 (amended): the walk returns the i-th child in sibling order for
0 <= i < length, NULL for i >= length, and for negative i it behaves as
index 0, returning the first child when there is one. -/
theorem claim_C8_get_array_item (cs : JChain) (i : Int) :
    cy_p64_cJSON_GetArrayItem (some cs) i =
      (if i < 0 then (chainVals cs).head? else (chainVals cs).get? i.toNat) := by
  show getArrayItem_walk cs i = _
  induction cs using JChain.tail_induction generalizing i with
  | h0 =>
      simp [getArrayItem_walk, chainVals]
  | h1 nm v t ih =>
      rw [getArrayItem_walk]
      by_cases hi : i > 0
      · rw [if_pos hi, ih (i - 1)]
        rw [if_neg (by omega), if_neg (by omega)]
        have : i.toNat = (i - 1).toNat + 1 := by omega
        rw [this]
        simp [chainVals]
      · rw [if_neg hi]
        rcases lt_or_eq_of_le (not_lt.mp hi) with hlt | heq
        · rw [if_pos hlt]
          simp [chainVals]
        · rw [if_neg (by omega)]
          have : i.toNat = 0 := by omega
          rw [this]
          simp [chainVals]

/-! ## C6: array separators in pretty mode -/

/-- Join rendered children with a fixed separator. -/
def joinSep (sep : List Nat) : List (List Nat) → List Nat
  | [] => []
  | [x] => x
  | x :: y :: t => x ++ sep ++ joinSep sep (y :: t)

/-- The children of a chain rendered one by one. -/
def chainPrints (depth : Nat) (fmt : Bool) : JChain → List (List Nat)
  | .nil => []
  | .cons _ v t => print_value depth fmt v :: chainPrints depth fmt t

/-- C6 counterexample: pretty-printing a two-element array yields
open-bracket, 1, comma, space, 2, close-bracket; no newline (byte 10) and
no tab (byte 9) appear anywhere, so consecutive siblings are not separated
by a newline plus tab indentation. -/
theorem claim_C6_counterexample :
    cy_p64_cJSON_Print (JNode.arr (.cons none (.num 1) (.cons none (.num 2) .nil)))
        = [91, 49, 44, 32, 50, 93] ∧
      (10 ∉ cy_p64_cJSON_Print (JNode.arr (.cons none (.num 1) (.cons none (.num 2) .nil))) ∧
       9 ∉ cy_p64_cJSON_Print (JNode.arr (.cons none (.num 1) (.cons none (.num 2) .nil)))) := by
  have h : cy_p64_cJSON_Print (JNode.arr (.cons none (.num 1) (.cons none (.num 2) .nil)))
      = [91, 49, 44, 32, 50, 93] := by
    simp [cy_p64_cJSON_Print, print_value, print_array, print_array_items, print_number,
      toDec, toDecAux]
  refine ⟨h, ?_, ?_⟩ <;> rw [h] <;> decide

/-- C6 (amended): in pretty mode, print_array joins consecutive rendered
siblings with a comma followed by a single space (never a newline or tab
indentation; those appear only in print_object). -/
theorem claim_C6_array_separator (depth : Nat) (cs : JChain) :
    print_array depth true cs = 91 :: joinSep [44, 32] (chainPrints (depth + 1) true cs) ++ [93] := by
  induction cs using JChain.tail_induction with
  | h0 => simp [print_array, chainPrints, joinSep]
  | h1 nm v t ih =>
      rw [print_array, chainPrints]
      rcases t with - | ⟨nm2, v2, t2⟩
      · simp [print_array_items, chainPrints, joinSep]
      · rw [print_array_items]
        have ht : print_array_items depth true (JChain.cons nm2 v2 t2)
            = joinSep [44, 32] (chainPrints (depth + 1) true (JChain.cons nm2 v2 t2)) := by
          have := ih
          rw [print_array] at this
          simpa using this
        rw [ht, chainPrints, joinSep]
        simp

/-! ## C4 and C10: the escape switch of parse_string -/

/-- The byte an accepted named escape produces. -/
def escValue (c : Nat) : Nat :=
  if c = 98 then 8
  else if c = 102 then 12
  else if c = 110 then 10
  else if c = 114 then 13
  else if c = 116 then 9
  else c

/-- C4 counterexample: the escape backslash-slash is accepted (the switch
has a slash case), although slash is neither one of the seven named
escapes b f n r t quote backslash nor the u of a u-escape; parsing the
literal backslash-slash succeeds and yields a slash. -/
theorem claim_C4_counterexample :
    parse_string [34, 92, 47, 34] = .ok ([47], []) ∧
      (47 : Nat) ∉ [98, 102, 110, 114, 116, 34, 92, 117] := by
  constructor
  · simp [parse_string, parse_string_scan, parse_string_loop, Except.map]
  · decide

/-- C4 (amended): immediately after a backslash, exactly the eight named
escapes b f n r t quote backslash slash and the u of a UTF-16 escape are
accepted; every other byte makes parse_string fail with the error pointer
at the backslash.  The named escapes produce their unescaped byte. -/
theorem claim_C4_escape_set (c : Nat) (rest : List Nat) :
    (c ∉ [98, 102, 110, 114, 116, 34, 92, 47, 117] →
      parse_string (34 :: 92 :: c :: 34 :: rest) = .error (some (92 :: c :: 34 :: rest))) ∧
    (c ∈ [98, 102, 110, 114, 116, 34, 92, 47] →
      parse_string (34 :: 92 :: c :: 34 :: rest) = .ok ([escValue c], rest)) := by
  constructor
  · intro hc
    simp only [List.mem_cons, not_or] at hc
    obtain ⟨h98, h102, h110, h114, h116, h34q, h92, h47, h117, -⟩ := hc
    have hscan : parse_string_scan (92 :: c :: 34 :: rest) = some 2 := by
      rw [parse_string_scan]
      simp [parse_string_scan]
    have hloop : parse_string_loop 2 (92 :: c :: 34 :: rest)
        = .error (some (92 :: c :: 34 :: rest)) := by
      rw [parse_string_loop.eq_def]
      dsimp only []
      split
      · rename_i heq
        exact absurd heq (by simp)
      all_goals try (rename_i heq; injection heq with e1 e2; omega)
      rename_i c2 l3 hx1 hx2 hx3 hx4 hx5 hx6 hx7 hx8 hx9 heq
      injection heq with e1 e2
      rw [← e1, ← e2]
    rw [parse_string]
    rw [hscan]
    dsimp only []
    rw [hloop]
    rfl
  · intro hc
    fin_cases hc <;>
      simp [parse_string, parse_string_scan, parse_string_loop, escValue, Except.map]

/-- One escape-free byte passes through the copy loop untouched. -/
theorem parse_string_loop_cons_plain (p : Nat) (pt : List Nat) (m : Nat) (l : List Nat)
    (hp : p ≠ 92) :
    parse_string_loop ((p :: pt).length + m) ((p :: pt) ++ l) =
      (parse_string_loop (pt.length + m) (pt ++ l)).map (fun s => p :: s) := by
  rw [parse_string_loop.eq_def]
  split
  · rename_i heq
    simp only [List.length_cons] at heq
    omega
  · rename_i heq
    exact absurd heq (by simp)
  all_goals try (rename_i heq; injection heq with e1 e2; exact absurd e1 hp)
  rename_i hne heq1 heq
  injection heq with e1 e2
  subst e1
  rw [← e2]
  have hred : ((p :: pt).length + m).pred = pt.length + m := by simp
  rw [hred]
  rfl

/-- The copy loop passes over an escape-free prefix untouched. -/
theorem parse_string_loop_append_plain : ∀ (plain : List Nat) (m : Nat) (l : List Nat),
    (∀ c ∈ plain, c ≠ 92) →
    parse_string_loop (plain.length + m) (plain ++ l) =
      (parse_string_loop m l).map (fun s => plain ++ s) := by
  intro plain
  induction plain with
  | nil =>
      intro m l h
      rcases hx : parse_string_loop m l with e | s <;> simp [Except.map, hx]
  | cons p pt ih =>
      intro m l h
      rw [parse_string_loop_cons_plain p pt m l (h p (by simp))]
      rw [ih m l (fun x hx => h x (by simp [hx]))]
      rcases hx : parse_string_loop m l with e | s <;> simp [Except.map, hx]

/-- Witness for C4: the escape x is rejected at the backslash; the escape
n is accepted and produces the newline byte. -/
theorem claim_C4_witness :
    parse_string [34, 92, 120, 34] = .error (some [92, 120, 34]) ∧
      parse_string [34, 92, 110, 34] = .ok ([escValue 110], []) :=
  ⟨(claim_C4_escape_set 120 []).1 (by decide), (claim_C4_escape_set 110 []).2 (by decide)⟩

/-- The pre-scan advances one byte at a time over a quote-free,
backslash-free prefix. -/
theorem parse_string_scan_append_plain : ∀ (plain : List Nat),
    (∀ c ∈ plain, c ≠ 34 ∧ c ≠ 92) → ∀ l : List Nat,
    parse_string_scan (plain ++ l) = (parse_string_scan l).map (· + plain.length) := by
  intro plain
  induction plain with
  | nil =>
      intro h l
      rcases hx : parse_string_scan l with - | k <;> simp [hx]
  | cons p pt ih =>
      intro h l
      have hp := h p (by simp)
      rw [parse_string_scan.eq_def]
      split
      · rename_i heq
        exact absurd heq (by simp)
      · rename_i heq
        have : p = 34 := by injection heq
        exact absurd this hp.1
      · rename_i heq
        have : p = 92 := by injection heq
        exact absurd this hp.2
      · rename_i heq
        have : p = 92 := by injection heq
        exact absurd this hp.2
      · rename_i c2 r2 hne1 hne2 hne3 heq
        injection heq with e1 e2
        rw [← e2]
        simp only [List.append_eq]
        rw [ih (fun x hx => h x (by simp [hx])) l]
        rcases hx : parse_string_scan l with - | k <;> simp [hx]
        omega

/-- C10: the UTF-16 decoder rejects the code unit 0, so a string literal
whose first escape is u0000 can never parse: utf16_literal_to_utf8 fails
on the escape with the error pointer at its backslash, and parse_string
fails on any literal consisting of plain text followed by that escape. -/
theorem claim_C10_u0000_rejected (plain rest : List Nat)
    (hplain : ∀ c ∈ plain, c ≠ 34 ∧ c ≠ 92) :
    (∀ rem, 6 ≤ rem →
      utf16_literal_to_utf8 rem (92 :: 117 :: 48 :: 48 :: 48 :: 48 :: rest)
        = .error (some (92 :: 117 :: 48 :: 48 :: 48 :: 48 :: rest))) ∧
    (∃ e, parse_string (34 :: (plain ++ 92 :: 117 :: 48 :: 48 :: 48 :: 48 :: rest))
        = .error e) := by
  have hutf : ∀ rem, 6 ≤ rem →
      utf16_literal_to_utf8 rem (92 :: 117 :: 48 :: 48 :: 48 :: 48 :: rest)
        = .error (some (92 :: 117 :: 48 :: 48 :: 48 :: 48 :: rest)) := by
    intro rem hrem
    rw [utf16_literal_to_utf8]
    rw [if_neg (by omega)]
    have h0 : parse_hex4 48 48 48 48 = 0 := by decide
    simp [h0]
  refine ⟨hutf, ?_⟩
  have hscan0 : parse_string_scan (92 :: 117 :: 48 :: 48 :: 48 :: 48 :: rest)
      = (parse_string_scan rest).map (· + 6) := by
    rcases hx : parse_string_scan rest with - | k <;>
      simp [parse_string_scan, hx] <;> omega
  have hscan : parse_string_scan (plain ++ 92 :: 117 :: 48 :: 48 :: 48 :: 48 :: rest)
      = (parse_string_scan rest).map (· + 6 + plain.length) := by
    rw [parse_string_scan_append_plain plain hplain, hscan0]
    rcases hx : parse_string_scan rest with - | k <;> rfl
  rw [parse_string, hscan]
  rcases hx : parse_string_scan rest with - | k
  · exact ⟨none, rfl⟩
  · dsimp only [Option.map]
    have hsplit : k + 6 + plain.length = plain.length + (k + 6) := by omega
    rw [hsplit, parse_string_loop_append_plain plain (k + 6)
      (92 :: 117 :: 48 :: 48 :: 48 :: 48 :: rest) (fun x hx2 => (hplain x hx2).2)]
    have hloop : parse_string_loop (k + 6) (92 :: 117 :: 48 :: 48 :: 48 :: 48 :: rest)
        = .error (some (92 :: 117 :: 48 :: 48 :: 48 :: 48 :: rest)) := by
      rw [parse_string_loop.eq_def]
      dsimp only []
      rw [hutf (k + 5 + 1) (by omega)]
    rw [hloop]
    exact ⟨some (92 :: 117 :: 48 :: 48 :: 48 :: 48 :: rest), rfl⟩

/-- Witness for C10 at the concrete literal quote a backslash-u0000
quote. -/
theorem claim_C10_witness :
    ∃ e, parse_string [34, 97, 92, 117, 48, 48, 48, 48, 34] = .error e :=
  (claim_C10_u0000_rejected [97] [34] (by decide)).2

/-! ## C9: reference nodes and deletion -/

theorem lor_256_land_256 (ty : Nat) : (ty ||| 256) &&& 256 = 256 := by
  apply Nat.eq_of_testBit_eq
  intro j
  rw [Nat.testBit_land, Nat.testBit_lor]
  by_cases hj : j = 8
  · subst hj
    simp [show Nat.testBit 256 8 = true from by decide]
  · have h2 : Nat.testBit 256 j = false := by
      have : (256 : Nat) = 2 ^ 8 := by decide
      rw [this, Nat.testBit_two_pow_of_ne (fun h => hj h.symm)]
    simp [h2]

theorem deleteChain_append : ∀ a b : List CNode,
    deleteChain (a ++ b) = deleteChain a ++ deleteChain b := by
  intro a
  induction a with
  | nil => intro b; simp [deleteChain]
  | cons c t ih => intro b; simp [deleteChain, ih]

theorem chainAllocs_append : ∀ a b : List CNode,
    chainAllocs (a ++ b) = chainAllocs a ++ chainAllocs b := by
  intro a
  induction a with
  | nil => intro b; simp [chainAllocs]
  | cons c t ih => intro b; simp [chainAllocs, ih]

/-- Whatever Delete frees inside a subtree is an allocation of that
subtree. -/
theorem delete_sub : ∀ n : Nat,
    (∀ c : CNode, sizeOf c ≤ n → ∀ x ∈ deleteFreed c, x ∈ nodeAllocs c) ∧
    (∀ cs : List CNode, sizeOf cs ≤ n → ∀ x ∈ deleteChain cs, x ∈ chainAllocs cs) := by
  intro n
  induction n with
  | zero =>
      constructor
      · intro c hc
        rcases c with ⟨id, ty, vs, ns, ch⟩
        simp at hc
      · intro cs hcs x hx
        rcases cs with - | ⟨c, t⟩
        · simp [deleteChain] at hx
        · simp at hcs
  | succ n ih =>
      constructor
      · intro c hc x hx
        rcases c with ⟨id, ty, vs, ns, ch⟩
        have hch : sizeOf ch ≤ n := by simp at hc; omega
        have hchain := ih.2 ch hch x
        rw [deleteFreed] at hx
        rw [nodeAllocs]
        by_cases h256 : ty &&& 256 = 0 <;> by_cases h512 : ty &&& 512 = 0 <;>
          simp [h256, h512] at hx ⊢ <;> tauto
      · intro cs hcs x hx
        rcases cs with - | ⟨c, t⟩
        · simp [deleteChain] at hx
        · rw [deleteChain] at hx
          rw [chainAllocs]
          simp only [List.mem_append] at hx ⊢
          have h1 : sizeOf c ≤ n := by simp at hcs; omega
          have h2 : sizeOf t ≤ n := by simp at hcs; omega
          rcases hx with hx | hx
          · left; exact ih.1 c h1 x hx
          · right; exact ih.2 t h2 x hx

/-- C9: deleting never follows a reference node's borrowed resources.
First part: for every node with the IsReference flag, Delete frees only
the node cell itself (and its name string when not const) - never its
child subtree and never its value string.  Second part: after
add_reference_to_array(arr, node) followed by delete(arr), no allocation
of node's subtree is freed, provided the reference wrapper cell is fresh
and arr's own allocations are disjoint from node's subtree, so node
remains valid and independently deletable. -/
theorem claim_C9_reference_delete :
    (∀ (id ty : Nat) (vs ns : Option Nat) (ch : List CNode), ty &&& 256 ≠ 0 →
      deleteFreed (CNode.mk id ty vs ns ch)
        = (if ty &&& 512 = 0 then ns.toList else []) ++ [id]) ∧
    (∀ (arr item : CNode) (fresh : Nat),
      (∀ x ∈ nodeAllocs item, x ∉ nodeAllocs arr) →
      fresh ∉ nodeAllocs item →
      ∀ x ∈ nodeAllocs item,
        x ∉ deleteFreed (cy_p64_cJSON_AddItemReferenceToArray fresh arr item)) := by
  constructor
  · intro id ty vs ns ch href
    rw [deleteFreed, if_neg href, if_neg href]
    simp
  · intro arr item fresh hdisj hfresh x hx hmem
    rcases arr with ⟨aid, aty, avs, ans, ach⟩
    rcases item with ⟨iid, ity, ivs, ins, ich⟩
    rw [cy_p64_cJSON_AddItemReferenceToArray, create_reference] at hmem
    rw [deleteFreed] at hmem
    have hreffree : deleteChain [CNode.mk fresh (ity ||| 256) ivs none ich] = [fresh] := by
      rw [deleteChain, deleteFreed]
      rw [if_neg (by rw [lor_256_land_256]; omega), if_neg (by rw [lor_256_land_256]; omega)]
      simp [deleteChain]
    rw [deleteChain_append, hreffree] at hmem
    have harr : x ∉ nodeAllocs (CNode.mk aid aty avs ans ach) := hdisj x hx
    rw [nodeAllocs] at harr
    have hchainx : x ∈ deleteChain ach → x ∈ chainAllocs ach :=
      (delete_sub (sizeOf ach)).2 ach le_rfl x
    have hxf : x ≠ fresh := fun e => hfresh (e ▸ hx)
    by_cases h256 : aty &&& 256 = 0 <;> by_cases h512 : aty &&& 512 = 0 <;>
      simp [h256, h512] at hmem harr <;> tauto

/-- Witness for C9: a one-node array, a string-valued node with one child,
and a fresh reference cell; nothing of the node's subtree is freed by
deleting the array. -/
theorem claim_C9_witness :
    ∀ x ∈ nodeAllocs (CNode.mk 10 8 (some 11) none [CNode.mk 12 0 none none []]),
      x ∉ deleteFreed (cy_p64_cJSON_AddItemReferenceToArray 20
        (CNode.mk 1 16 none none [CNode.mk 2 0 (some 3) none []])
        (CNode.mk 10 8 (some 11) none [CNode.mk 12 0 none none []])) :=
  claim_C9_reference_delete.2
    (CNode.mk 1 16 none none [CNode.mk 2 0 (some 3) none []])
    (CNode.mk 10 8 (some 11) none [CNode.mk 12 0 none none []]) 20
    (by decide) (by decide)

/-! ## C3: escape / unescape round trip -/

theorem hexDigitByte_plain (d : Nat) (hd : d < 16) :
    hexDigitByte d ≠ 34 ∧ hexDigitByte d ≠ 92 := by
  rw [hexDigitByte]
  split <;> omega

theorem flatMap_escChar_id : ∀ s : List Nat,
    (∀ b ∈ s, escNeeded b = false) → (∀ b ∈ s, 0 < b) → s.flatMap escChar = s := by
  intro s
  induction s with
  | nil => intro h1 h2; simp
  | cons c t ih =>
      intro h1 h2
      have hc := h1 c (by simp)
      have hc0 := h2 c (by simp)
      rw [escNeeded] at hc
      simp at hc
      have he : escChar c = [c] := by
        rw [escChar, if_pos]
        simp only [Bool.and_eq_true, decide_eq_true_eq]
        omega
      rw [List.flatMap_cons, he]
      rw [ih (fun b hb => h1 b (by simp [hb])) (fun b hb => h2 b (by simp [hb]))]
      rfl

/-- Both branches of print_string_ptr emit the quote-wrapped per-byte
escape rendering (on the fast path every byte escapes to itself). -/
theorem print_string_ptr_eq (s : List Nat) (hs : ∀ b ∈ s, 0 < b) :
    print_string_ptr s = 34 :: s.flatMap escChar ++ [34] := by
  rw [print_string_ptr]
  split
  · rename_i hall
    simp only [List.all_eq_true, Bool.not_eq_true'] at hall
    rw [flatMap_escChar_id s hall hs]
  · rfl

theorem parse_hex4_00XX : ∀ c, c < 32 →
    parse_hex4 48 48 (hexDigitByte (c / 16)) (hexDigitByte (c % 16)) = c := by decide

/-- The pre-scan advances exactly over the escape rendering of one
byte. -/
theorem parse_string_scan_escChar (c : Nat) (hc : 0 < c ∧ c < 256) (l : List Nat) :
    parse_string_scan (escChar c ++ l)
      = (parse_string_scan l).map (· + (escChar c).length) := by
  rw [escChar]
  by_cases h1 : (c > 31 ∧ c ≠ 34) ∧ c ≠ 92
  · rw [if_pos (by simp only [Bool.and_eq_true, decide_eq_true_eq]; exact h1)]
    exact parse_string_scan_append_plain [c] (by simp; omega) l
  · rw [if_neg (by simp only [Bool.and_eq_true, decide_eq_true_eq]; exact h1)]
    split_ifs
    all_goals try (simp [parse_string_scan]; done)
    · have hp1 := hexDigitByte_plain (c / 16) (by omega)
      have hp2 := hexDigitByte_plain (c % 16) (by have := Nat.mod_lt c (y := 16) (by omega); omega)
      have hplain : ∀ x ∈ [48, 48, hexDigitByte (c / 16), hexDigitByte (c % 16)],
          x ≠ 34 ∧ x ≠ 92 := by
        intro x hx
        simp at hx
        rcases hx with rfl | rfl | rfl | rfl <;> simp [hp1, hp2] <;> omega
      have := parse_string_scan_append_plain
        [48, 48, hexDigitByte (c / 16), hexDigitByte (c % 16)] hplain l
      rw [show ([92, 117, 48, 48, hexDigitByte (c / 16), hexDigitByte (c % 16)] : List Nat) ++ l
            = 92 :: 117 :: ([48, 48, hexDigitByte (c / 16), hexDigitByte (c % 16)] ++ l) from rfl]
      rw [parse_string_scan]
      rw [this]
      rcases hx : parse_string_scan l with - | k <;> simp [hx] <;> omega

/-- The pre-scan over a whole escape rendering. -/
theorem parse_string_scan_escBody : ∀ (s : List Nat), (∀ b ∈ s, 0 < b ∧ b < 256) →
    ∀ l : List Nat, parse_string_scan (s.flatMap escChar ++ l)
      = (parse_string_scan l).map (· + (s.flatMap escChar).length) := by
  intro s
  induction s with
  | nil =>
      intro h l
      rcases hx : parse_string_scan l with - | k <;> simp [hx]
  | cons c t ih =>
      intro h l
      rw [List.flatMap_cons, List.append_assoc]
      rw [parse_string_scan_escChar c (h c (by simp)) (t.flatMap escChar ++ l)]
      rw [ih (fun b hb => h b (by simp [hb])) l]
      rcases hx : parse_string_scan l with - | k <;> simp [hx]
      omega

/-- The copy loop over the escape rendering of one byte restores that
byte. -/
theorem parse_string_loop_escChar (c : Nat) (hc : 0 < c ∧ c < 256) (m : Nat) (l : List Nat) :
    parse_string_loop (m + (escChar c).length) (escChar c ++ l)
      = (parse_string_loop m l).map (fun s => c :: s) := by
  by_cases hbig : (c > 31 ∧ c ≠ 34) ∧ c ≠ 92
  · have he : escChar c = [c] := by
      rw [escChar, if_pos]
      simp only [Bool.and_eq_true, decide_eq_true_eq]
      exact hbig
    rw [he]
    have h2 := parse_string_loop_cons_plain c [] m l hbig.2
    simp only [List.length_cons, List.length_nil, List.nil_append, Nat.zero_add] at h2
    rw [show m + [c].length = 1 + m from by simp [Nat.add_comm]]
    simpa using h2
  · rw [escChar, if_neg (by simp only [Bool.and_eq_true, decide_eq_true_eq]; exact hbig)]
    split_ifs with e1 e2 e3 e4 e5 e6 e7
    · subst e1; simp [parse_string_loop]
    · subst e2; simp [parse_string_loop]
    · subst e3; simp [parse_string_loop]
    · subst e4; simp [parse_string_loop]
    · subst e5; simp [parse_string_loop]
    · subst e6; simp [parse_string_loop]
    · subst e7; simp [parse_string_loop]
    · have hcontrol : c < 32 := by
        rcases not_and_or.mp hbig with h | h
        · rcases not_and_or.mp h with h2 | h2
          · omega
          · omega
        · omega
      have hutf : utf16_literal_to_utf8 (m + 6)
          (92 :: 117 :: 48 :: 48 :: hexDigitByte (c / 16) :: hexDigitByte (c % 16) :: l)
            = .ok ([c], 6) := by
        rw [utf16_literal_to_utf8, if_neg (by omega)]
        rw [parse_hex4_00XX c hcontrol]
        rw [if_neg (by omega), if_neg (by omega)]
        rw [utf8_written, if_pos (by omega)]
      rw [show ([92, 117, 48, 48, hexDigitByte (c / 16), hexDigitByte (c % 16)] : List Nat) ++ l
            = 92 :: 117 :: 48 :: 48 :: hexDigitByte (c / 16) :: hexDigitByte (c % 16) :: l
          from rfl]
      rw [show ([92, 117, 48, 48, hexDigitByte (c / 16), hexDigitByte (c % 16)] :
            List Nat).length = 6 from rfl]
      rw [parse_string_loop.eq_def]
      dsimp only []
      rw [show m + 5 + 1 = m + 6 from rfl]
      rw [hutf]
      dsimp only []
      rw [show m + 6 - 6 = m from by omega]
      rw [show (117 :: 48 :: 48 :: hexDigitByte (c / 16) :: hexDigitByte (c % 16) :: l).drop
            (6 - 1) = l from rfl]
      rcases hx : parse_string_loop m l with e | s <;> simp [Except.map, hx]

/-- The copy loop over a whole escape rendering restores the original
bytes and stops at the closing quote position. -/
theorem parse_string_loop_escBody : ∀ (s : List Nat), (∀ b ∈ s, 0 < b ∧ b < 256) →
    ∀ l : List Nat,
    parse_string_loop (s.flatMap escChar).length (s.flatMap escChar ++ l) = .ok s := by
  intro s
  induction s with
  | nil =>
      intro h l
      simp [parse_string_loop]
  | cons c t ih =>
      intro h l
      rw [List.flatMap_cons, List.append_assoc, List.length_append]
      rw [show (escChar c).length + (t.flatMap escChar).length
            = (t.flatMap escChar).length + (escChar c).length from by omega]
      rw [parse_string_loop_escChar c (h c (by simp)) (t.flatMap escChar).length
        (t.flatMap escChar ++ l)]
      rw [ih (fun b hb => h b (by simp [hb])) l]
      rfl

/-- parse_string inverts print_string_ptr on NUL-free byte strings. -/
theorem parse_string_print_roundtrip (s rest : List Nat)
    (hs : ∀ b ∈ s, 0 < b ∧ b < 256) :
    parse_string (print_string_ptr s ++ rest) = .ok (s, rest) := by
  rw [print_string_ptr_eq s (fun b hb => (hs b hb).1)]
  rw [show (34 :: s.flatMap escChar ++ [34]) ++ rest
        = 34 :: (s.flatMap escChar ++ (34 :: rest)) from by simp]
  rw [parse_string]
  have hscan : parse_string_scan (s.flatMap escChar ++ (34 :: rest))
      = some (s.flatMap escChar).length := by
    rw [parse_string_scan_escBody s hs]
    simp [parse_string_scan]
  rw [hscan]
  dsimp only []
  rw [parse_string_loop_escBody s hs (34 :: rest)]
  have hdrop : (s.flatMap escChar ++ (34 :: rest)).drop ((s.flatMap escChar).length + 1)
      = rest := by
    rw [show s.flatMap escChar ++ (34 :: rest)
          = (s.flatMap escChar ++ [34]) ++ rest from by simp]
    rw [show (s.flatMap escChar).length + 1
          = (s.flatMap escChar ++ [34]).length from by simp]
    exact List.drop_left _ _
  show Except.ok (s, (s.flatMap escChar ++ (34 :: rest)).drop ((s.flatMap escChar).length + 1))
    = Except.ok (s, rest)
  rw [hdrop]

/-- C3: unescaping the escaped form of any NUL-free byte string (control
characters, quotes, backslashes, non-ASCII bytes included) yields exactly
the original string: parse_string inverts print_string_ptr. -/
theorem claim_C3_escape_roundtrip (s rest : List Nat)
    (hs : ∀ b ∈ s, 0 < b ∧ b < 256) :
    parse_string (print_string_ptr s ++ rest) = .ok (s, rest) :=
  parse_string_print_roundtrip s rest hs

/-- Witness for C3 on a string holding a control byte, a quote, a
backslash, a low control byte, a non-ASCII byte and a slash. -/
theorem claim_C3_witness :
    parse_string (print_string_ptr [8, 34, 92, 11, 200, 47] ++ [])
      = .ok ([8, 34, 92, 11, 200, 47], []) :=
  claim_C3_escape_roundtrip [8, 34, 92, 11, 200, 47] [] (by decide)

/-! ## C1: round trip for engine-built trees -/

mutual

/-- Well-formed trees as the engine's constructors and parser build them:
Number values fit the unsigned 32-bit field, strings are NUL-free byte
strings, array children carry no name, object members carry NUL-free
names, and no Raw nodes occur (CreateRaw output does not re-parse). -/
def wfTree : JNode → Bool
  | .jnull => true
  | .jfalse => true
  | .jtrue => true
  | .num v => v < 4294967296
  | .str s => s.all (fun c => 0 < c && c < 256)
  | .raw _ => false
  | .arr cs => wfArrChain cs
  | .obj cs => wfObjChain cs
termination_by t => (sizeOf t, 1)

def wfArrChain : JChain → Bool
  | .nil => true
  | .cons nm v t => nm.isNone && wfTree v && wfArrChain t
termination_by cs => (sizeOf cs, 0)

def wfObjChain : JChain → Bool
  | .nil => true
  | .cons nm v t =>
      (match nm with
       | some s => s.all (fun c => 0 < c && c < 256)
       | none => false) && wfTree v && wfObjChain t
termination_by cs => (sizeOf cs, 0)

end

mutual

/-- Fuel needed by parse_value for a printed tree (an upper bound on the
modelled recursion depth). -/
def needFuel : JNode → Nat
  | .arr .nil => 1
  | .arr (.cons nm v t) => 1 + needChain (.cons nm v t)
  | .obj .nil => 1
  | .obj (.cons nm v t) => 1 + needChain (.cons nm v t)
  | _ => 1
termination_by t => (sizeOf t, 1)

def needChain : JChain → Nat
  | .nil => 1
  | .cons _ v t => 1 + max (needFuel v) (needChain t)
termination_by cs => (sizeOf cs, 0)

end

theorem needFuel_pos (t : JNode) : 1 ≤ needFuel t := by
  rw [needFuel.eq_def]
  split <;> omega

theorem needChain_pos (cs : JChain) : 1 ≤ needChain cs := by
  rw [needChain.eq_def]
  split <;> omega

theorem litMatch_self_append : ∀ a x : List Nat, litMatch a (a ++ x) = true := by
  intro a
  induction a with
  | nil => intro x; rfl
  | cons c t ih => intro x; simp [litMatch, ih]

theorem litMatch_head_ne {a b : Nat} (la lb : List Nat) (h : a ≠ b) :
    litMatch (a :: la) (b :: lb) = false := by
  simp [litMatch, h]

theorem print_number_head (v : Nat) :
    ∃ d0 r, print_number v = d0 :: r ∧ 48 ≤ d0 ∧ d0 ≤ 57 := by
  rcases Nat.eq_zero_or_pos v with rfl | hpos
  · exact ⟨48, [], by simp [print_number], by omega, by omega⟩
  · rw [print_number, if_neg (by omega)]
    rcases hx : toDec v with - | ⟨d0, r⟩
    · exact absurd hx (toDec_ne_nil v)
    · have hd := toDec_digits v d0 (by rw [hx]; simp)
      exact ⟨d0, r, rfl, hd.1, hd.2⟩

theorem print_string_ptr_head (s : List Nat) :
    ∃ r, print_string_ptr s = 34 :: r := by
  rw [print_string_ptr]
  split <;> exact ⟨_, rfl⟩

/-- The first byte of any printed well-formed value: above 32 (so skip
does not move) and none of the closing delimiters. -/
theorem print_first_byte (d : Nat) (t : JNode) (hw : wfTree t = true) :
    ∃ c r, print_value d false t = c :: r ∧ 32 < c ∧ c ≠ 93 ∧ c ≠ 125 ∧ c ≠ 44 := by
  rcases t with - | - | - | v | s | s | cs | cs
  · exact ⟨110, [117, 108, 108], by simp [print_value], by omega, by omega, by omega, by omega⟩
  · exact ⟨102, [97, 108, 115, 101], by simp [print_value], by omega, by omega, by omega,
      by omega⟩
  · exact ⟨116, [114, 117, 101], by simp [print_value], by omega, by omega, by omega, by omega⟩
  · obtain ⟨d0, r, hr, h1, h2⟩ := print_number_head v
    exact ⟨d0, r, by rw [print_value.eq_def]; exact hr, by omega, by omega, by omega, by omega⟩
  · obtain ⟨r, hr⟩ := print_string_ptr_head s
    exact ⟨34, r, by rw [print_value.eq_def]; exact hr, by omega, by omega, by omega, by omega⟩
  · rw [wfTree] at hw
    simp at hw
  · rcases cs with - | ⟨nm, v, t⟩
    · exact ⟨91, [93], by simp [print_value, print_array], by omega, by omega, by omega,
        by omega⟩
    · exact ⟨91, print_array_items d false (JChain.cons nm v t) ++ [93],
        by simp [print_value, print_array], by omega, by omega, by omega, by omega⟩
  · rcases cs with - | ⟨nm, v, t⟩
    · exact ⟨123, [125], by simp [print_value, print_object], by omega, by omega, by omega,
        by omega⟩
    · exact ⟨123, print_object_items (d + 1) false (JChain.cons nm v t) ++ [125],
        by simp [print_value, print_object], by omega, by omega, by omega, by omega⟩

theorem skip_cons_gt {c : Nat} (l : List Nat) (h : 32 < c) : skip (c :: l) = c :: l := by
  rw [skip, List.dropWhile_cons]
  rw [show (isWsByte c) = false from by rw [isWsByte]; simp; omega]
  simp

theorem parse_value_null (f : Nat) (rest : List Nat) :
    parse_value (f + 1) ([110, 117, 108, 108] ++ rest) = .ok (JNode.jnull, rest) := by
  rw [parse_value.eq_def]
  dsimp only []
  rw [if_pos (litMatch_self_append [110, 117, 108, 108] rest)]
  simp

theorem parse_value_false (f : Nat) (rest : List Nat) :
    parse_value (f + 1) ([102, 97, 108, 115, 101] ++ rest) = .ok (JNode.jfalse, rest) := by
  rw [parse_value.eq_def]
  dsimp only []
  rw [if_neg (by simp [litMatch])]
  rw [if_pos (litMatch_self_append [102, 97, 108, 115, 101] rest)]
  simp

theorem parse_value_true (f : Nat) (rest : List Nat) :
    parse_value (f + 1) ([116, 114, 117, 101] ++ rest) = .ok (JNode.jtrue, rest) := by
  rw [parse_value.eq_def]
  dsimp only []
  rw [if_neg (by simp [litMatch])]
  rw [if_neg (by simp [litMatch])]
  rw [if_pos (litMatch_self_append [116, 114, 117, 101] rest)]
  simp

theorem parse_value_quote (f : Nat) (X : List Nat) :
    parse_value (f + 1) (34 :: X)
      = (parse_string (34 :: X)).map (fun sr => (JNode.str sr.1, sr.2)) := by
  rw [parse_value.eq_def]
  simp [litMatch]

theorem parse_value_digit (f : Nat) (c : Nat) (X : List Nat) (hc : 48 ≤ c ∧ c ≤ 57) :
    parse_value (f + 1) (c :: X) = parse_number (c :: X) := by
  rw [parse_value.eq_def]
  dsimp only []
  rw [if_neg (by rw [litMatch_head_ne _ _ (show (110 : Nat) ≠ c from by omega)]; simp)]
  rw [if_neg (by rw [litMatch_head_ne _ _ (show (102 : Nat) ≠ c from by omega)]; simp)]
  rw [if_neg (by rw [litMatch_head_ne _ _ (show (116 : Nat) ≠ c from by omega)]; simp)]
  split
  · rename_i heq
    have : c = 34 := by injection heq
    omega
  · rename_i c2 X2 heq
    injection heq with e1 e2
    subst e1
    rw [if_pos (by omega)]
  · rename_i heq
    exact absurd heq (by simp)

theorem parse_value_arr (f : Nat) (X : List Nat) :
    parse_value (f + 1) (91 :: X) = parse_array f (91 :: X) := by
  rw [parse_value.eq_def]
  simp [litMatch]

theorem parse_value_obj (f : Nat) (X : List Nat) :
    parse_value (f + 1) (123 :: X) = parse_object f (123 :: X) := by
  rw [parse_value.eq_def]
  simp [litMatch]

/-- Master round-trip induction on fuel: parse_value inverts print_value
on well-formed trees, and the element loops invert the item printers. -/
theorem parse_print_master : ∀ f : Nat,
    (∀ (d : Nat) (t : JNode) (rest : List Nat), wfTree t = true → needFuel t ≤ f →
      numGuard rest →
      parse_value f (print_value d false t ++ rest) = .ok (t, rest)) ∧
    (∀ (d : Nat) (cs : JChain) (rest : List Nat), wfArrChain cs = true → cs ≠ JChain.nil →
      needChain cs ≤ f →
      parse_array_items f (print_array_items d false cs ++ 93 :: rest) = .ok (cs, rest)) ∧
    (∀ (d : Nat) (cs : JChain) (rest : List Nat), wfObjChain cs = true → cs ≠ JChain.nil →
      needChain cs ≤ f →
      parse_object_items f (print_object_items d false cs ++ 125 :: rest) = .ok (cs, rest)) := by
  intro f
  induction f using Nat.strong_induction_on with
  | _ f ih =>
  refine ⟨?_, ?_, ?_⟩
  · -- parse_value inverts print_value
    intro d t rest hw hneed hrest
    rcases f with - | f'
    · have := needFuel_pos t
      omega
    rcases t with - | - | - | v | s | s | cs | cs
    · rw [show print_value d false JNode.jnull = [110, 117, 108, 108] from by simp [print_value]]
      exact parse_value_null f' rest
    · rw [show print_value d false JNode.jfalse = [102, 97, 108, 115, 101] from by
        simp [print_value]]
      exact parse_value_false f' rest
    · rw [show print_value d false JNode.jtrue = [116, 114, 117, 101] from by simp [print_value]]
      exact parse_value_true f' rest
    · -- number
      rw [wfTree] at hw
      simp only [decide_eq_true_eq] at hw
      rw [show print_value d false (JNode.num v) = print_number v from by simp [print_value]]
      obtain ⟨d0, pr, hh, hd1, hd2⟩ := print_number_head v
      rw [hh]
      rw [show (d0 :: pr) ++ rest = d0 :: (pr ++ rest) from rfl]
      rw [parse_value_digit f' d0 (pr ++ rest) ⟨hd1, hd2⟩]
      rw [show d0 :: (pr ++ rest) = print_number v ++ rest from by rw [hh]; rfl]
      exact parse_number_print v hw rest hrest
    · -- string
      rw [wfTree] at hw
      simp only [List.all_eq_true, Bool.and_eq_true, decide_eq_true_eq] at hw
      rw [show print_value d false (JNode.str s) = print_string_ptr s from by simp [print_value]]
      obtain ⟨pr, hh⟩ := print_string_ptr_head s
      rw [hh]
      rw [show (34 :: pr) ++ rest = 34 :: (pr ++ rest) from rfl]
      rw [parse_value_quote f' (pr ++ rest)]
      rw [show 34 :: (pr ++ rest) = print_string_ptr s ++ rest from by rw [hh]; rfl]
      rw [parse_string_print_roundtrip s rest hw]
      rfl
    · rw [wfTree] at hw
      simp at hw
    · -- array
      rw [wfTree] at hw
      rw [show print_value d false (JNode.arr cs) = print_array d false cs from by
        simp [print_value]]
      rcases cs with - | ⟨nm, v, t⟩
      · rw [show print_array d false JChain.nil = [91, 93] from by simp [print_array]]
        rw [show ([91, 93] : List Nat) ++ rest = 91 :: 93 :: rest from rfl]
        rw [parse_value_arr f' (93 :: rest)]
        rw [parse_array]
        rw [skip_cons_gt rest (by omega)]
      · rw [show print_array d false (JChain.cons nm v t)
            = 91 :: print_array_items d false (JChain.cons nm v t) ++ [93] from by
          simp [print_array]]
        rw [show (91 :: print_array_items d false (JChain.cons nm v t) ++ [93]) ++ rest
            = 91 :: (print_array_items d false (JChain.cons nm v t) ++ (93 :: rest)) from by
          simp]
        rw [parse_value_arr f' _]
        rw [parse_array]
        have hwv : wfTree v = true := by
          rw [wfArrChain] at hw
          simp at hw
          exact hw.1.2
        obtain ⟨c0, r0, hc0, h32, h93, h125, h44⟩ := print_first_byte (d + 1) v hwv
        have hXc : print_array_items d false (JChain.cons nm v t) ++ (93 :: rest)
            = c0 :: (r0 ++
                ((match t with
                  | JChain.nil => []
                  | JChain.cons _ _ _ => 44 :: (if false then [32] else [])) ++
                  (print_array_items d false t ++ (93 :: rest)))) := by
          rw [print_array_items.eq_def]
          dsimp only []
          rw [hc0]
          rcases t with - | ⟨y1, y2, y3⟩ <;> simp
        rw [hXc, skip_cons_gt _ h32, ← hXc]
        split
        · rename_i r2 heq
          rw [hXc] at heq
          have : c0 = 93 := by injection heq
          exact absurd this h93
        · rename_i hne
          have harr := (ih f' (by omega)).2.1 d (JChain.cons nm v t) rest hw (by simp)
            (by
              rw [needFuel] at hneed
              omega)
          rw [harr]
          rfl
    · -- object
      rw [wfTree] at hw
      rw [show print_value d false (JNode.obj cs) = print_object d false cs from by
        simp [print_value]]
      rcases cs with - | ⟨nm, v, t⟩
      · rw [show print_object d false JChain.nil = [123, 125] from by simp [print_object]]
        rw [show ([123, 125] : List Nat) ++ rest = 123 :: 125 :: rest from rfl]
        rw [parse_value_obj f' (125 :: rest)]
        rw [parse_object]
        rw [skip_cons_gt rest (by omega)]
      · rw [show print_object d false (JChain.cons nm v t)
            = 123 :: print_object_items (d + 1) false (JChain.cons nm v t) ++ [125] from by
          simp [print_object]]
        rw [show (123 :: print_object_items (d + 1) false (JChain.cons nm v t) ++ [125]) ++ rest
            = 123 :: (print_object_items (d + 1) false (JChain.cons nm v t) ++ (125 :: rest))
          from by simp]
        rw [parse_value_obj f' _]
        rw [parse_object]
        have hnm : ∃ s, nm = some s := by
          rcases nm with - | s
          · rw [wfObjChain.eq_def] at hw
            dsimp only [] at hw
            simp at hw
          · exact ⟨s, rfl⟩
        obtain ⟨s, rfl⟩ := hnm
        have hXc : print_object_items (d + 1) false (JChain.cons (some s) v t) ++ (125 :: rest)
            = 34 :: ((print_string_ptr s).tail ++
                ((58 :: (print_value (d + 1) false v
                  ++ ((match t with
                      | JChain.nil => []
                      | JChain.cons _ _ _ => [44]) ++
                    (print_object_items (d + 1) false t ++ (125 :: rest))))))) := by
          obtain ⟨pr, hh⟩ := print_string_ptr_head s
          rw [print_object_items.eq_def]
          dsimp only []
          rw [print_name, hh]
          rcases t with - | ⟨y1, y2, y3⟩ <;> simp
        rw [hXc, skip_cons_gt _ (by omega), ← hXc]
        split
        · rename_i r2 heq
          rw [hXc] at heq
          have : (34 : Nat) = 125 := by injection heq
          omega
        · rename_i hne
          have hobj := (ih f' (by omega)).2.2 (d + 1) (JChain.cons (some s) v t) rest hw
            (by simp)
            (by
              rw [needFuel] at hneed
              omega)
          rw [hobj]
          rfl
  · -- parse_array_items inverts print_array_items
    intro d cs rest hw hne hneed
    rcases f with - | f'
    · have := needChain_pos cs
      omega
    rcases cs with - | ⟨nm, v, t⟩
    · exact absurd rfl hne
    have hnm : nm = none := by
      rw [wfArrChain] at hw
      simp at hw
      exact hw.1.1
    subst hnm
    have hwv : wfTree v = true := by
      rw [wfArrChain] at hw
      simp at hw
      exact hw.1
    have hwt : wfArrChain t = true := by
      rw [wfArrChain] at hw
      simp at hw
      exact hw.2
    have hneedv : needFuel v ≤ f' := by
      rw [needChain] at hneed
      omega
    have hneedt : needChain t ≤ f' := by
      rw [needChain] at hneed
      omega
    rw [parse_array_items.eq_def]
    dsimp only []
    rcases t with - | ⟨nm2, v2, t2⟩
    · -- last element
      rw [show print_array_items d false (JChain.cons none v JChain.nil) ++ 93 :: rest
          = print_value (d + 1) false v ++ (93 :: rest) from by
        rw [print_array_items.eq_def]
        dsimp only []
        rw [print_array_items.eq_def]
        dsimp only []
        simp]
      rw [(ih f' (by omega)).1 (d + 1) v (93 :: rest) hwv hneedv
        (by intro c hc; simp at hc; rw [← hc]; rfl)]
      dsimp only []
      rw [skip_cons_gt rest (by omega)]
    · -- element followed by a comma
      rw [show print_array_items d false (JChain.cons none v (JChain.cons nm2 v2 t2))
            ++ 93 :: rest
          = print_value (d + 1) false v
            ++ (44 :: (print_array_items d false (JChain.cons nm2 v2 t2) ++ (93 :: rest)))
        from by
          conv_lhs => rw [print_array_items.eq_def]
          dsimp only []
          simp]
      rw [(ih f' (by omega)).1 (d + 1) v _ hwv hneedv
        (by intro c hc; simp at hc; rw [← hc]; rfl)]
      dsimp only []
      rw [skip_cons_gt _ (by omega)]
      dsimp only []
      have hwv2 : wfTree v2 = true := by
        rw [wfArrChain] at hwt
        simp at hwt
        exact hwt.1.2
      obtain ⟨c0, r0, hc0, h32, h93, h125, h44⟩ := print_first_byte (d + 1) v2 hwv2
      have hXc : print_array_items d false (JChain.cons nm2 v2 t2) ++ (93 :: rest)
          = c0 :: (r0 ++
              ((match t2 with
                | JChain.nil => []
                | JChain.cons _ _ _ => 44 :: (if false then [32] else [])) ++
                (print_array_items d false t2 ++ (93 :: rest)))) := by
        rw [print_array_items.eq_def]
        dsimp only []
        rw [hc0]
        rcases t2 with - | ⟨y1, y2, y3⟩ <;> simp
      rw [hXc, skip_cons_gt _ h32, ← hXc]
      rw [(ih f' (by omega)).2.1 d (JChain.cons nm2 v2 t2) rest hwt (by simp) hneedt]
      rfl
  · -- parse_object_items inverts print_object_items
    intro d cs rest hw hne hneed
    rcases f with - | f'
    · have := needChain_pos cs
      omega
    rcases cs with - | ⟨nm, v, t⟩
    · exact absurd rfl hne
    have hnm : ∃ s, nm = some s := by
      rcases nm with - | s
      · rw [wfObjChain.eq_def] at hw
        dsimp only [] at hw
        simp at hw
      · exact ⟨s, rfl⟩
    obtain ⟨s, rfl⟩ := hnm
    have hsv : ∀ b ∈ s, 0 < b ∧ b < 256 := by
      rw [wfObjChain.eq_def] at hw
      dsimp only [] at hw
      simp at hw
      exact hw.1.1
    have hwv : wfTree v = true := by
      rw [wfObjChain.eq_def] at hw
      dsimp only [] at hw
      simp at hw
      exact hw.1.2
    have hwt : wfObjChain t = true := by
      rw [wfObjChain.eq_def] at hw
      dsimp only [] at hw
      simp at hw
      exact hw.2
    have hneedv : needFuel v ≤ f' := by
      rw [needChain] at hneed
      omega
    have hneedt : needChain t ≤ f' := by
      rw [needChain] at hneed
      omega
    rw [parse_object_items.eq_def]
    dsimp only []
    rw [show print_object_items d false (JChain.cons (some s) v t) ++ 125 :: rest
        = print_string_ptr s
          ++ (58 :: (print_value d false v
            ++ ((match t with
                | JChain.nil => []
                | JChain.cons _ _ _ => [44])
              ++ (print_object_items d false t ++ (125 :: rest))))) from by
      rw [print_object_items.eq_def]
      dsimp only []
      rw [print_name]
      rcases t with - | ⟨y1, y2, y3⟩ <;> simp]
    rw [parse_string_print_roundtrip s _ hsv]
    dsimp only []
    rw [skip_cons_gt _ (by omega)]
    dsimp only []
    obtain ⟨c0, r0, hc0, h32, h93, h125, h44⟩ := print_first_byte d v hwv
    have hYc : print_value d false v
        ++ ((match t with
            | JChain.nil => []
            | JChain.cons _ _ _ => [44])
          ++ (print_object_items d false t ++ (125 :: rest)))
        = c0 :: (r0 ++
            ((match t with
              | JChain.nil => []
              | JChain.cons _ _ _ => [44])
            ++ (print_object_items d false t ++ (125 :: rest)))) := by
      rw [hc0]
      rfl
    rw [hYc, skip_cons_gt _ h32, ← hYc]
    rcases t with - | ⟨nm2, v2, t2⟩
    · rw [show print_value d false v
          ++ ((match JChain.nil with
              | JChain.nil => ([] : List Nat)
              | JChain.cons _ _ _ => [44])
            ++ (print_object_items d false JChain.nil ++ (125 :: rest)))
          = print_value d false v ++ (125 :: rest) from by
        rw [print_object_items.eq_def]
        dsimp only []
        simp]
      rw [(ih f' (by omega)).1 d v (125 :: rest) hwv hneedv
        (by intro c hc; simp at hc; rw [← hc]; rfl)]
      dsimp only []
      rw [skip_cons_gt rest (by omega)]
    · rw [show print_value d false v
          ++ ((match JChain.cons nm2 v2 t2 with
              | JChain.nil => ([] : List Nat)
              | JChain.cons _ _ _ => [44])
            ++ (print_object_items d false (JChain.cons nm2 v2 t2) ++ (125 :: rest)))
          = print_value d false v
            ++ (44 :: (print_object_items d false (JChain.cons nm2 v2 t2) ++ (125 :: rest)))
        from by simp]
      rw [(ih f' (by omega)).1 d v _ hwv hneedv
        (by intro c hc; simp at hc; rw [← hc]; rfl)]
      dsimp only []
      rw [skip_cons_gt _ (by omega)]
      dsimp only []
      have hnm2 : ∃ s2, nm2 = some s2 := by
        rcases nm2 with - | s2
        · rw [wfObjChain.eq_def] at hwt
          dsimp only [] at hwt
          simp at hwt
        · exact ⟨s2, rfl⟩
      obtain ⟨s2, rfl⟩ := hnm2
      have hZc : print_object_items d false (JChain.cons (some s2) v2 t2) ++ (125 :: rest)
          = 34 :: ((print_string_ptr s2).tail
              ++ (58 :: (print_value d false v2
                ++ ((match t2 with
                    | JChain.nil => []
                    | JChain.cons _ _ _ => [44])
                  ++ (print_object_items d false t2 ++ (125 :: rest)))))) := by
        obtain ⟨pr, hh⟩ := print_string_ptr_head s2
        rw [print_object_items.eq_def]
        dsimp only []
        rw [print_name, hh]
        rcases t2 with - | ⟨y1, y2, y3⟩ <;> simp
      rw [hZc, skip_cons_gt _ (by omega), ← hZc]
      rw [(ih f' (by omega)).2.2 d (JChain.cons (some s2) v2 t2) rest hwt (by simp) hneedt]
      rfl

/-- The fuel needed by the parser is bounded by the printed length, so the
entry point's length + 1 fuel always suffices for printed trees. -/
theorem need_le_print : ∀ n : Nat,
    (∀ (d : Nat) (t : JNode), sizeOf t ≤ n → wfTree t = true →
      needFuel t ≤ (print_value d false t).length) ∧
    (∀ (d : Nat) (cs : JChain), sizeOf cs ≤ n → wfArrChain cs = true → cs ≠ JChain.nil →
      needChain cs ≤ (print_array_items d false cs).length + 1) ∧
    (∀ (d : Nat) (cs : JChain), sizeOf cs ≤ n → wfObjChain cs = true → cs ≠ JChain.nil →
      needChain cs ≤ (print_object_items d false cs).length + 1) := by
  intro n
  induction n using Nat.strong_induction_on with
  | _ n ih =>
  refine ⟨?_, ?_, ?_⟩
  · intro d t hs hw
    rcases t with - | - | - | v | s | s | cs | cs
    · simp [needFuel, print_value]
    · simp [needFuel, print_value]
    · simp [needFuel, print_value]
    · obtain ⟨d0, pr, hh, -, -⟩ := print_number_head v
      rw [show print_value d false (JNode.num v) = print_number v from by simp [print_value], hh]
      rw [needFuel.eq_def]
      dsimp only []
      simp
    · obtain ⟨pr, hh⟩ := print_string_ptr_head s
      rw [show print_value d false (JNode.str s) = print_string_ptr s from by
        simp [print_value], hh]
      rw [needFuel.eq_def]
      dsimp only []
      simp
    · rw [wfTree] at hw
      simp at hw
    · rcases cs with - | ⟨nm, v, t⟩
      · rw [show print_value d false (JNode.arr JChain.nil) = [91, 93] from by
          simp [print_value, print_array]]
        rw [needFuel]
        simp
      · rw [show print_value d false (JNode.arr (JChain.cons nm v t))
            = 91 :: print_array_items d false (JChain.cons nm v t) ++ [93] from by
          simp [print_value, print_array]]
        rw [needFuel]
        have hlt : sizeOf (JChain.cons nm v t) < n := by
          simp at hs ⊢
          omega
        have hrec := (ih _ hlt).2.1 d (JChain.cons nm v t) le_rfl
          (by rw [wfTree] at hw; exact hw) (by simp)
        simp only [List.length_cons, List.length_append]
        omega
    · rcases cs with - | ⟨nm, v, t⟩
      · rw [show print_value d false (JNode.obj JChain.nil) = [123, 125] from by
          simp [print_value, print_object]]
        rw [needFuel]
        simp
      · rw [show print_value d false (JNode.obj (JChain.cons nm v t))
            = 123 :: print_object_items (d + 1) false (JChain.cons nm v t) ++ [125] from by
          simp [print_object, print_value]]
        rw [needFuel]
        have hlt : sizeOf (JChain.cons nm v t) < n := by
          simp at hs ⊢
          omega
        have hrec := (ih _ hlt).2.2 (d + 1) (JChain.cons nm v t) le_rfl
          (by rw [wfTree] at hw; exact hw) (by simp)
        simp only [List.length_cons, List.length_append]
        omega
  · intro d cs hs hw hne
    rcases cs with - | ⟨nm, v, t⟩
    · exact absurd rfl hne
    have hwv : wfTree v = true := by
      rw [wfArrChain] at hw
      simp at hw
      exact hw.1.2
    have hwt : wfArrChain t = true := by
      rw [wfArrChain] at hw
      simp at hw
      exact hw.2
    have hltv : sizeOf v < n := by
      simp at hs
      omega
    have hneedv := (ih _ hltv).1 (d + 1) v le_rfl hwv
    rw [needChain]
    rcases t with - | ⟨nm2, v2, t2⟩
    · rw [show print_array_items d false (JChain.cons nm v JChain.nil)
          = print_value (d + 1) false v from by
        rw [print_array_items.eq_def]
        dsimp only []
        rw [print_array_items.eq_def]
        dsimp only []
        simp]
      rw [needChain]
      have := needFuel_pos v
      omega
    · rw [show print_array_items d false (JChain.cons nm v (JChain.cons nm2 v2 t2))
          = print_value (d + 1) false v
            ++ (44 :: print_array_items d false (JChain.cons nm2 v2 t2)) from by
        conv_lhs => rw [print_array_items.eq_def]
        dsimp only []
        simp]
      have hltt : sizeOf (JChain.cons nm2 v2 t2) < n := by
        simp at hs ⊢
        omega
      have hneedt := (ih _ hltt).2.1 d (JChain.cons nm2 v2 t2) le_rfl hwt (by simp)
      simp only [List.length_append, List.length_cons]
      omega
  · intro d cs hs hw hne
    rcases cs with - | ⟨nm, v, t⟩
    · exact absurd rfl hne
    have hnm : ∃ s, nm = some s := by
      rcases nm with - | s
      · rw [wfObjChain.eq_def] at hw
        dsimp only [] at hw
        simp at hw
      · exact ⟨s, rfl⟩
    obtain ⟨s, rfl⟩ := hnm
    have hwv : wfTree v = true := by
      rw [wfObjChain.eq_def] at hw
      dsimp only [] at hw
      simp at hw
      exact hw.1.2
    have hwt : wfObjChain t = true := by
      rw [wfObjChain.eq_def] at hw
      dsimp only [] at hw
      simp at hw
      exact hw.2
    have hltv : sizeOf v < n := by
      simp at hs
      omega
    have hneedv := (ih _ hltv).1 d v le_rfl hwv
    rw [needChain]
    rcases t with - | ⟨nm2, v2, t2⟩
    · rw [show print_object_items d false (JChain.cons (some s) v JChain.nil)
          = print_name (some s) ++ (58 :: print_value d false v) from by
        rw [print_object_items.eq_def]
        dsimp only []
        rw [print_object_items.eq_def]
        dsimp only []
        simp]
      rw [needChain]
      have := needFuel_pos v
      simp only [List.length_append, List.length_cons]
      omega
    · rw [show print_object_items d false (JChain.cons (some s) v (JChain.cons nm2 v2 t2))
          = print_name (some s)
            ++ (58 :: (print_value d false v
              ++ (44 :: print_object_items d false (JChain.cons nm2 v2 t2)))) from by
        conv_lhs => rw [print_object_items.eq_def]
        dsimp only []
        simp]
      have hltt : sizeOf (JChain.cons nm2 v2 t2) < n := by
        simp at hs ⊢
        omega
      have hneedt := (ih _ hltt).2.2 d (JChain.cons nm2 v2 t2) le_rfl hwt (by simp)
      simp only [List.length_append, List.length_cons]
      omega

/-! ## C1: parse after print-unformatted round trip -/

/-- C1 counterexample: a Raw node is one of the engine's own constructors
(cy_p64_cJSON_CreateRaw), and print_value emits its payload verbatim; the
bytes "x" it prints for raw "x" do not parse back, so the round trip fails
and cannot return a structurally equal tree. -/
theorem claim_C1_counterexample :
    cy_p64_cJSON_PrintUnformatted (JNode.raw [120]) = [120] ∧
    cy_p64_cJSON_Parse [120] = .error (some [120]) := by
  constructor
  · simp [cy_p64_cJSON_PrintUnformatted, print_value]
  · simp [cy_p64_cJSON_Parse, cy_p64_cJSON_ParseWithOpts, parse_value, skip,
      List.dropWhile, isWsByte, litMatch]

/-- C1 (corrected): for every tree that is well formed for printing —
built from null, false, true, number, string, array and object nodes,
i.e. the shapes the parser itself produces, excluding Raw nodes —
parsing the unformatted print of the tree returns exactly the tree. -/
theorem claim_C1_roundtrip (t : JNode) (hw : wfTree t = true) :
    cy_p64_cJSON_Parse (cy_p64_cJSON_PrintUnformatted t) = .ok t := by
  have hneed := (need_le_print (sizeOf t)).1 0 t le_rfl hw
  obtain ⟨c, r, hcr, hgt, -, -, -⟩ := print_first_byte 0 t hw
  have hskip : skip (print_value 0 false t) = print_value 0 false t := by
    rw [hcr]
    exact skip_cons_gt r hgt
  have hpv : parse_value ((print_value 0 false t).length + 1)
      (print_value 0 false t ++ []) = .ok (t, []) :=
    (parse_print_master ((print_value 0 false t).length + 1)).1 0 t [] hw (by omega)
      (by intro c hc; simp at hc)
  rw [List.append_nil] at hpv
  simp only [cy_p64_cJSON_Parse, cy_p64_cJSON_ParseWithOpts, cy_p64_cJSON_PrintUnformatted,
    hskip, hpv]
  simp

/-- C1 witness: the round trip holds at the concrete tree
obj \x7b "a": [5, "hi"] \x7d. -/
theorem claim_C1_witness :
    wfTree (JNode.obj (JChain.cons (some [97])
      (JNode.arr (JChain.cons none (JNode.num 5)
        (JChain.cons none (JNode.str [104, 105]) JChain.nil)))
      JChain.nil)) = true ∧
    cy_p64_cJSON_Parse (cy_p64_cJSON_PrintUnformatted
      (JNode.obj (JChain.cons (some [97])
        (JNode.arr (JChain.cons none (JNode.num 5)
          (JChain.cons none (JNode.str [104, 105]) JChain.nil)))
        JChain.nil))) =
      .ok (JNode.obj (JChain.cons (some [97])
        (JNode.arr (JChain.cons none (JNode.num 5)
          (JChain.cons none (JNode.str [104, 105]) JChain.nil)))
        JChain.nil)) := by
  refine ⟨?_, claim_C1_roundtrip _ ?_⟩ <;>
    simp [wfTree, wfArrChain, wfObjChain]

/-! ## C5: where the error pointer may point -/

/-- A parse result respects the input position discipline when any stored
error pointer, and the returned rest on success, lies within the input
(is a byte suffix of it); an untouched (NULL) pointer always does. -/
def resInto {α : Type} (l : List Nat) : PRes (α × List Nat) → Prop
  | .error none => True
  | .error (some p) => p <:+ l
  | .ok (_, r) => r <:+ l

/-- An Except.map that errors does so with the payload of its argument. -/
theorem pres_map_err {α β : Type} {x : PRes α} {f : α → β} {p : List Nat}
    (h : x.map f = .error (some p)) : x = .error (some p) := by
  rcases x with e | a
  · simp only [Except.map] at h
    injection h with h2
    rw [h2]
  · simp [Except.map] at h

theorem suffix_cons2 {p : List Nat} (a b : Nat) {l : List Nat} (h : p <:+ l) :
    p <:+ a :: b :: l :=
  (h.trans (List.suffix_cons b l)).trans (List.suffix_cons a (b :: l))

/-- Every error pointer stored by the UTF-16 decoder is the position of
the backslash it was called at. -/
theorem utf16_err {rem : Nat} {l p : List Nat}
    (h : utf16_literal_to_utf8 rem l = .error (some p)) : p = l := by
  rw [utf16_literal_to_utf8.eq_def] at h
  split at h
  · simp at h
    exact h.symm
  · split at h
    · dsimp only [] at h
      split_ifs at h
      all_goals try split at h
      all_goals try dsimp only [] at h
      all_goals try split_ifs at h
      all_goals simp at h
      all_goals first
        | exact h.symm
        | exact h
    · simp at h

theorem parse_string_loop_err (rem : Nat) (l : List Nat) (p : List Nat)
    (h : parse_string_loop rem l = .error (some p)) : p <:+ l := by
  induction rem, l using parse_string_loop.induct with
  | case1 l => rw [parse_string_loop] at h; simp at h
  | case2 r => rw [parse_string_loop] at h; simp at h
  | case3 r => rw [parse_string_loop] at h; simp at h
  | case4 r l3 ih =>
    rw [parse_string_loop.eq_def] at h
    dsimp only [] at h
    exact suffix_cons2 92 98 (ih (pres_map_err h))
  | case5 r l3 ih =>
    rw [parse_string_loop.eq_def] at h
    dsimp only [] at h
    exact suffix_cons2 92 102 (ih (pres_map_err h))
  | case6 r l3 ih =>
    rw [parse_string_loop.eq_def] at h
    dsimp only [] at h
    exact suffix_cons2 92 110 (ih (pres_map_err h))
  | case7 r l3 ih =>
    rw [parse_string_loop.eq_def] at h
    dsimp only [] at h
    exact suffix_cons2 92 114 (ih (pres_map_err h))
  | case8 r l3 ih =>
    rw [parse_string_loop.eq_def] at h
    dsimp only [] at h
    exact suffix_cons2 92 116 (ih (pres_map_err h))
  | case9 r l3 ih =>
    rw [parse_string_loop.eq_def] at h
    dsimp only [] at h
    exact suffix_cons2 92 34 (ih (pres_map_err h))
  | case10 r l3 ih =>
    rw [parse_string_loop.eq_def] at h
    dsimp only [] at h
    exact suffix_cons2 92 92 (ih (pres_map_err h))
  | case11 r l3 ih =>
    rw [parse_string_loop.eq_def] at h
    dsimp only [] at h
    exact suffix_cons2 92 47 (ih (pres_map_err h))
  | case12 r l3 e hx =>
    rw [parse_string_loop.eq_def] at h
    dsimp only [] at h
    rw [hx] at h
    simp at h
    have hp := @utf16_err (r + 1) (92 :: 117 :: l3) p (by rw [hx, h])
    exact hp ▸ List.suffix_refl p
  | case13 r l3 bytes slen hx ih =>
    rw [parse_string_loop.eq_def] at h
    dsimp only [] at h
    rw [hx] at h
    dsimp only [] at h
    exact ((ih (pres_map_err h)).trans
      (List.drop_suffix (slen - 1) (117 :: l3))).trans (List.suffix_cons 92 (117 :: l3))
  | case14 r c l3 h1 h2 h3 h4 h5 h6 h7 h8 h9 =>
    rw [parse_string_loop.eq_def] at h
    dsimp only [] at h
    split at h
    all_goals simp_all
  | case15 n c l2 hc ih =>
    rw [parse_string_loop.eq_def] at h
    split at h
    all_goals first
      | (simp_all; done)
      | (rename_i n2 c2 l22 x2 heq1 heq2
         obtain ⟨hce, hle⟩ := List.cons.inj heq2
         subst hce
         subst hle
         exact (ih (pres_map_err h)).trans (List.suffix_cons c l2))

theorem resInto_of_suffix {α : Type} {l1 l2 : List Nat} {x : PRes (α × List Nat)}
    (hs : l1 <:+ l2) (h : resInto l1 x) : resInto l2 x := by
  rcases x with e | ⟨a, r⟩
  · rcases e with - | p
    · exact h
    · exact List.IsSuffix.trans h hs
  · exact List.IsSuffix.trans h hs

theorem skip_suffix (l : List Nat) : skip l <:+ l := by
  rw [skip]
  exact List.dropWhile_suffix isWsByte

/-- Both the rest returned by parse_string and any error pointer it
stores lie within its input. -/
theorem parse_string_resInto (input : List Nat) : resInto input (parse_string input) := by
  rw [parse_string.eq_def]
  split
  · rename_i r
    rcases hsc : parse_string_scan r with - | n <;> dsimp only []
    · exact trivial
    · rcases hx : parse_string_loop n r with e | s
      · rcases e with - | p
        · exact trivial
        · exact List.IsSuffix.trans (parse_string_loop_err n r p hx)
            (List.suffix_cons 34 r)
      · show resInto (34 :: r) (Except.map _ (Except.ok s))
        rw [show Except.map (fun s => (s, r.drop (n + 1))) (Except.ok s)
            = Except.ok (s, r.drop (n + 1)) from rfl]
        exact List.IsSuffix.trans (List.drop_suffix (n + 1) r) (List.suffix_cons 34 r)
  · exact List.suffix_refl _

/-- Both the rest returned by parse_number and any error pointer it
stores lie within its input. -/
theorem parse_number_resInto (l : List Nat) : resInto l (parse_number l) := by
  rw [parse_number]
  split
  · exact trivial
  · exact List.drop_suffix _ l

theorem resInto_map_snd {α β : Type} {l : List Nat} {x : PRes (α × List Nat)}
    (g : α → β) (h : resInto l x) :
    resInto l (x.map (fun ar => (g ar.1, ar.2))) := by
  rcases x with e | ⟨a, r⟩
  · rcases e with - | p
    · exact trivial
    · exact h
  · exact h

theorem resInto_error_cast {α β : Type} {l : List Nat} {e : Option (List Nat)}
    (h : resInto l (Except.error e : PRes (α × List Nat))) :
    resInto l (Except.error e : PRes (β × List Nat)) := by
  rcases e with - | p
  · exact trivial
  · exact h

/-- Throughout the recursive parser, every stored error pointer and every
returned rest position lies within (is a suffix of) the input the parser
was called on. -/
theorem parse_suffix_master : ∀ f : Nat,
    (∀ l, resInto l (parse_value f l)) ∧
    (∀ l, resInto l (parse_array f l)) ∧
    (∀ l, resInto l (parse_array_items f l)) ∧
    (∀ l, resInto l (parse_object f l)) ∧
    (∀ l, resInto l (parse_object_items f l)) := by
  intro f
  induction f using Nat.strong_induction_on with
  | _ f ih =>
  have hai : ∀ l, resInto l (parse_array_items f l) := by
    intro l
    rcases f with - | g
    · rw [parse_array_items]
      exact trivial
    · rw [parse_array_items.eq_def]
      dsimp only []
      rcases hv1 : parse_value g l with e | ⟨v, r⟩ <;> dsimp only []
      · have hres := (ih g (by omega)).1 l
        rw [hv1] at hres
        exact resInto_error_cast hres
      · have hrl : r <:+ l := by
          have hres := (ih g (by omega)).1 l
          rw [hv1] at hres
          exact hres
        split
        · rename_i r2 heq
          refine resInto_map_snd _ (resInto_of_suffix ?_ ((ih g (by omega)).2.2.1 (skip r2)))
          exact (((skip_suffix r2).trans (List.suffix_cons 44 r2)).trans
            (heq ▸ skip_suffix r)).trans hrl
        · rename_i r2 heq
          show r2 <:+ l
          exact (((List.suffix_cons 93 r2).trans (heq ▸ skip_suffix r))).trans hrl
        · show skip r <:+ l
          exact (skip_suffix r).trans hrl
  have hoi : ∀ l, resInto l (parse_object_items f l) := by
    intro l
    rcases f with - | g
    · rw [parse_object_items]
      exact trivial
    · rw [parse_object_items.eq_def]
      dsimp only []
      rcases hs1 : parse_string l with e | ⟨nm, r⟩ <;> dsimp only []
      · have hres := parse_string_resInto l
        rw [hs1] at hres
        exact resInto_error_cast hres
      · have hrl : r <:+ l := by
          have hres := parse_string_resInto l
          rw [hs1] at hres
          exact hres
        split
        · rename_i r2 heq
          have hr2l : skip r2 <:+ l :=
            (((skip_suffix r2).trans (List.suffix_cons 58 r2)).trans
              (heq ▸ skip_suffix r)).trans hrl
          rcases hv1 : parse_value g (skip r2) with e | ⟨v, r3⟩ <;> dsimp only []
          · have hres := (ih g (by omega)).1 (skip r2)
            rw [hv1] at hres
            exact resInto_of_suffix hr2l (resInto_error_cast hres)
          · have hr3 : r3 <:+ l := by
              have hres := (ih g (by omega)).1 (skip r2)
              rw [hv1] at hres
              exact (List.IsSuffix.trans hres hr2l)
            split
            · rename_i r4 heq2
              refine resInto_map_snd _
                (resInto_of_suffix ?_ ((ih g (by omega)).2.2.2.2 (skip r4)))
              exact (((skip_suffix r4).trans (List.suffix_cons 44 r4)).trans
                (heq2 ▸ skip_suffix r3)).trans hr3
            · rename_i r4 heq2
              show r4 <:+ l
              exact ((List.suffix_cons 125 r4).trans (heq2 ▸ skip_suffix r3)).trans hr3
            · show skip r3 <:+ l
              exact (skip_suffix r3).trans hr3
        · rename_i r1 heq
          show skip r <:+ l
          exact (skip_suffix r).trans hrl
  have har : ∀ l, resInto l (parse_array f l) := by
    intro l
    rw [parse_array.eq_def]
    split
    · rename_i r
      split
      · rename_i r2 heq
        show r2 <:+ 91 :: r
        exact ((List.suffix_cons 93 r2).trans (heq ▸ skip_suffix r)).trans
          (List.suffix_cons 91 r)
      · refine resInto_map_snd _ (resInto_of_suffix ?_ (hai (skip r)))
        exact (skip_suffix r).trans (List.suffix_cons 91 r)
    · exact List.suffix_refl _
  have hob : ∀ l, resInto l (parse_object f l) := by
    intro l
    rw [parse_object.eq_def]
    split
    · rename_i r
      split
      · rename_i r2 heq
        show r2 <:+ 123 :: r
        exact ((List.suffix_cons 125 r2).trans (heq ▸ skip_suffix r)).trans
          (List.suffix_cons 123 r)
      · refine resInto_map_snd _ (resInto_of_suffix ?_ (hoi (skip r)))
        exact (skip_suffix r).trans (List.suffix_cons 123 r)
    · exact List.suffix_refl _
  have hv : ∀ l, resInto l (parse_value f l) := by
    intro l
    rcases f with - | g
    · rw [parse_value]
      exact trivial
    · rw [parse_value.eq_def]
      dsimp only []
      split_ifs
      · exact List.drop_suffix 4 l
      · exact List.drop_suffix 5 l
      · exact List.drop_suffix 4 l
      · split
        · exact resInto_map_snd _ (parse_string_resInto _)
        · split_ifs
          · exact parse_number_resInto _
          · exact (ih g (by omega)).2.1 _
          · exact (ih g (by omega)).2.2.2.1 _
          · exact List.suffix_refl _
        · exact List.suffix_refl _
  exact ⟨hv, har, hai, hob, hoi⟩

/-- C5 counterexample: parsing "-x" fails inside parse_number (strtoll
converts no bytes, so parse_number returns NULL), yet this failure path
never writes to the error pointer: the per-call error output stays NULL
and does not point at the offending byte. -/
theorem claim_C5_counterexample :
    cy_p64_cJSON_ParseWithOpts [45, 120] false = .error none := by
  simp [cy_p64_cJSON_ParseWithOpts, parse_value, skip, List.dropWhile, isWsByte, litMatch,
    parse_number, strtoll_model, isSpaceByte, isDigitByte, List.takeWhile]

/-- C5 (corrected): when parsing fails, the error pointer either still
holds its initial NULL (number-conversion failures, pre-scan failures of
string parsing and call-stack exhaustion never write it) or points at a
byte position inside the input text (the pointed position is a byte
suffix of the input); the spec's stronger claim that every failure sets
it to the offending byte is refuted by the counterexample. -/
theorem claim_C5_error_pointer (text : List Nat) (req : Bool) (e : Option (List Nat))
    (h : cy_p64_cJSON_ParseWithOpts text req = .error e) :
    e = none ∨ ∃ p, e = some p ∧ p <:+ text := by
  rw [cy_p64_cJSON_ParseWithOpts] at h
  rcases hpv : parse_value (text.length + 1) (skip text) with e1 | ⟨t, rest⟩ <;>
    rw [hpv] at h
  · have hres := (parse_suffix_master (text.length + 1)).1 (skip text)
    rw [hpv] at hres
    rcases e1 with - | p
    · left
      simp at h
      exact h.symm
    · right
      simp at h
      exact ⟨p, h.symm, List.IsSuffix.trans hres (skip_suffix text)⟩
  · have hres := (parse_suffix_master (text.length + 1)).1 (skip text)
    rw [hpv] at hres
    rcases req with - | -
    · simp at h
    · dsimp only [] at h
      rw [if_pos rfl] at h
      split at h
      · simp at h
      · right
        simp at h
        exact ⟨skip rest, h.symm, ((skip_suffix rest).trans hres).trans (skip_suffix text)⟩

/-- C5 witness: parsing "x" fails with the error pointer set, and the
theorem places the pointed position inside the input. -/
theorem claim_C5_witness :
    cy_p64_cJSON_ParseWithOpts [120] false = .error (some [120]) ∧
    ((some [120] : Option (List Nat)) = none ∨
      ∃ p, (some [120] : Option (List Nat)) = some p ∧ p <:+ [120]) := by
  have h : cy_p64_cJSON_ParseWithOpts [120] false = .error (some [120]) := by
    simp [cy_p64_cJSON_ParseWithOpts, parse_value, skip, List.dropWhile, isWsByte, litMatch]
  exact ⟨h, claim_C5_error_pointer [120] false (some [120]) h⟩

/-! ## C7: Minify -/

/-- The body a successful string copy extracts re-scans to itself in
front of any continuation: the copied bytes contain no closing quote
outside an escape pair. -/
theorem minify_takeStr_again (m : List Nat) (l : List Nat) : ∀ s r2 : List Nat,
    minify_takeStr l = some (s, r2) → minify_takeStr (s ++ 34 :: m) = some (s, m) := by
  induction l using minify_takeStr.induct with
  | case1 =>
    intro s r2 h
    simp [minify_takeStr] at h
  | case2 r =>
    intro s r2 h
    rw [minify_takeStr] at h
    simp only [Option.some.injEq, Prod.mk.injEq] at h
    rw [show s = ([] : List Nat) from h.1.symm, List.nil_append, minify_takeStr]
  | case3 =>
    intro s r2 h
    simp [minify_takeStr] at h
  | case4 c r ih =>
    intro s r2 h
    rw [minify_takeStr] at h
    rcases hx : minify_takeStr r with - | ⟨s1, r3⟩ <;> rw [hx] at h
    · simp at h
    · simp only [Option.map_some', Option.some.injEq, Prod.mk.injEq] at h
      obtain ⟨hs, hr⟩ := h
      rw [show s = 92 :: c :: s1 from hs.symm, List.cons_append, List.cons_append,
        minify_takeStr, ih s1 r3 hx]
      rfl
  | case5 c r h34 h92a h92b ih =>
    intro s r2 h
    have hc92 : c = 92 → False := by
      intro hc
      rcases r with - | ⟨a, t⟩
      · exact h92a hc rfl
      · exact h92b a t hc rfl
    rw [minify_takeStr.eq_5 c r h34 h92a h92b] at h
    rcases hx : minify_takeStr r with - | ⟨s1, r3⟩ <;> rw [hx] at h
    · simp at h
    · simp only [Option.map_some', Option.some.injEq, Prod.mk.injEq] at h
      obtain ⟨hs, hrr⟩ := h
      rw [show s = c :: s1 from hs.symm, List.cons_append,
        minify_takeStr.eq_5 c (s1 ++ 34 :: m) h34 (fun hc _ => hc92 hc)
          (fun a t hc _ => hc92 hc), ih s1 r3 hx]
      rfl

/-- A successful string copy splits its input as body, closing quote,
rest. -/
theorem minify_takeStr_split (l : List Nat) : ∀ s r2 : List Nat,
    minify_takeStr l = some (s, r2) → l = s ++ 34 :: r2 := by
  induction l using minify_takeStr.induct with
  | case1 =>
    intro s r2 h
    simp [minify_takeStr] at h
  | case2 r =>
    intro s r2 h
    rw [minify_takeStr] at h
    simp only [Option.some.injEq, Prod.mk.injEq] at h
    rw [show s = ([] : List Nat) from h.1.symm, show r2 = r from h.2.symm, List.nil_append]
  | case3 =>
    intro s r2 h
    simp [minify_takeStr] at h
  | case4 c r ih =>
    intro s r2 h
    rw [minify_takeStr] at h
    rcases hx : minify_takeStr r with - | ⟨s1, r3⟩ <;> rw [hx] at h
    · simp at h
    · simp only [Option.map_some', Option.some.injEq, Prod.mk.injEq] at h
      obtain ⟨hs, hr⟩ := h
      rw [show s = 92 :: c :: s1 from hs.symm, show r2 = r3 from hr.symm,
        List.cons_append, List.cons_append, ih s1 r3 hx]
  | case5 c r h34 h92a h92b ih =>
    intro s r2 h
    rw [minify_takeStr.eq_5 c r h34 h92a h92b] at h
    rcases hx : minify_takeStr r with - | ⟨s1, r3⟩ <;> rw [hx] at h
    · simp at h
    · simp only [Option.map_some', Option.some.injEq, Prod.mk.injEq] at h
      obtain ⟨hs, hrr⟩ := h
      rw [show s = c :: s1 from hs.symm, show r2 = r3 from hrr.symm,
        List.cons_append, ih s1 r3 hx]

/-- Everything cy_p64_cJSON_Minify outputs is clean: no whitespace byte
outside string literals and every string literal terminated. -/
theorem minify_output_wsClean (t : List Nat) : ∀ y : List Nat,
    cy_p64_cJSON_Minify t = some y → minify_wsClean y = true := by
  induction t using cy_p64_cJSON_Minify.induct with
  | case1 =>
    intro y h
    rw [cy_p64_cJSON_Minify] at h
    injection h with h2
    rw [show y = ([] : List Nat) from h2.symm, minify_wsClean]
  | case2 r ih =>
    intro y h
    rw [cy_p64_cJSON_Minify] at h
    exact ih y h
  | case3 r ih =>
    intro y h
    rw [cy_p64_cJSON_Minify] at h
    exact ih y h
  | case4 r ih =>
    intro y h
    rw [cy_p64_cJSON_Minify] at h
    exact ih y h
  | case5 r ih =>
    intro y h
    rw [cy_p64_cJSON_Minify] at h
    exact ih y h
  | case6 r ih =>
    intro y h
    rw [cy_p64_cJSON_Minify] at h
    exact ih y h
  | case7 r hb =>
    intro y h
    rw [cy_p64_cJSON_Minify.eq_def] at h
    dsimp only [] at h
    split at h
    · simp at h
    · rename_i r2' heq
      rw [hb] at heq
      simp at heq
  | case8 r r2 hb ih =>
    intro y h
    rw [cy_p64_cJSON_Minify.eq_def] at h
    dsimp only [] at h
    split at h
    · rename_i heq
      rw [hb] at heq
      simp at heq
    · rename_i r2' heq
      rw [hb] at heq
      injection heq with heq2
      subst heq2
      exact ih y h
  | case9 r hts =>
    intro y h
    rw [cy_p64_cJSON_Minify.eq_def] at h
    dsimp only [] at h
    split at h
    · simp at h
    · rename_i s' r2' heq
      rw [hts] at heq
      simp at heq
  | case10 r s r2 hts ih =>
    intro y h
    rw [cy_p64_cJSON_Minify.eq_def] at h
    dsimp only [] at h
    split at h
    · rename_i heq
      rw [hts] at heq
      simp at heq
    · rename_i s' r2' heq
      rw [hts] at heq
      simp only [Option.some.injEq, Prod.mk.injEq] at heq
      obtain ⟨hs, hr⟩ := heq
      subst hs
      subst hr
      rcases hm : cy_p64_cJSON_Minify r2 with - | m <;> rw [hm] at h
      · simp at h
      · simp only [Option.map_some', Option.some.injEq] at h
        rw [show y = 34 :: (s ++ 34 :: m) from h.symm]
        rw [minify_wsClean.eq_def]
        dsimp only []
        split
        · rename_i heq2
          rw [minify_takeStr_again m r s r2 hts] at heq2
          simp at heq2
        · rename_i s2 m2 heq2
          rw [minify_takeStr_again m r s r2 hts] at heq2
          simp only [Option.some.injEq, Prod.mk.injEq] at heq2
          exact heq2.2 ▸ (ih m hm)
  | case11 c r hw32 hw9 hw13 hw10 h4747 h4742 h34 ih =>
    intro y h
    rw [cy_p64_cJSON_Minify.eq_9 c r hw32 hw9 hw13 hw10 h4747 h4742 h34] at h
    rcases hm : cy_p64_cJSON_Minify r with - | m <;> rw [hm] at h
    · simp at h
    · simp only [Option.map_some', Option.some.injEq] at h
      rw [show y = c :: m from h.symm]
      rw [minify_wsClean.eq_3 c m h34]
      simp [show c ≠ 32 from hw32, show c ≠ 9 from hw9, show c ≠ 13 from hw13,
        show c ≠ 10 from hw10, ih m hm]

/-- A text with no whitespace outside terminated string literals and no
comment openers is a fixed point of cy_p64_cJSON_Minify. -/
theorem minify_fixpoint (y : List Nat) :
    minify_wsClean y = true → minify_noComments y = true →
      cy_p64_cJSON_Minify y = some y := by
  induction y using minify_wsClean.induct with
  | case1 =>
    intro hw hnc
    rw [cy_p64_cJSON_Minify]
  | case2 r hts =>
    intro hw hnc
    rw [minify_wsClean.eq_def] at hw
    dsimp only [] at hw
    split at hw
    · simp at hw
    · rename_i s' r2' heq
      rw [hts] at heq
      simp at heq
  | case3 r s r2 hts ih =>
    intro hw hnc
    rw [minify_wsClean.eq_def] at hw
    dsimp only [] at hw
    rw [minify_noComments.eq_def] at hnc
    dsimp only [] at hnc
    split at hw
    · rename_i heq
      rw [hts] at heq
      simp at heq
    · rename_i s' r2' heq
      rw [hts] at heq
      simp only [Option.some.injEq, Prod.mk.injEq] at heq
      obtain ⟨hs, hr⟩ := heq
      subst hs
      subst hr
      split at hnc
      · rename_i heq2
        rw [hts] at heq2
        simp at heq2
      · rename_i s2 r22 heq2
        rw [hts] at heq2
        simp only [Option.some.injEq, Prod.mk.injEq] at heq2
        obtain ⟨hs2, hr2⟩ := heq2
        subst hs2
        subst hr2
        rw [cy_p64_cJSON_Minify.eq_def]
        dsimp only []
        split
        · rename_i heq3
          rw [hts] at heq3
          simp at heq3
        · rename_i s3 r23 heq3
          rw [hts] at heq3
          simp only [Option.some.injEq, Prod.mk.injEq] at heq3
          obtain ⟨hs3, hr3⟩ := heq3
          subst hs3
          subst hr3
          rw [ih hw hnc]
          rw [show r = s ++ 34 :: r2 from minify_takeStr_split r s r2 hts]
          rfl
  | case4 c r h34 ih =>
    intro hw hnc
    rw [minify_wsClean.eq_3 c r h34] at hw
    simp only [Bool.and_eq_true, Bool.not_eq_true', Bool.or_eq_false_iff,
      decide_eq_false_iff_not] at hw
    obtain ⟨⟨⟨⟨hc32, hc9⟩, hc13⟩, hc10⟩, hwr⟩ := hw
    rw [minify_noComments.eq_def] at hnc
    split at hnc
    · rename_i heq
      simp at heq
    · rename_i heq
      exact absurd (List.cons.inj heq).1 h34
    · rename_i tl heq
      simp at hnc
    · rename_i tl heq
      simp at hnc
    · rename_i c2 r4 hne34 hne47 hne42 heq
      obtain ⟨hc2, hr4⟩ := List.cons.inj heq
      subst hc2
      subst hr4
      rw [cy_p64_cJSON_Minify.eq_9 c r (fun e => hc32 e) (fun e => hc9 e)
        (fun e => hc13 e) (fun e => hc10 e)
        (fun r1 h47 hr => hne47 r1 h47 hr) (fun r1 h47 hr => hne42 r1 h47 hr) h34]
      rw [ih hwr hnc]
      rfl

/-- C7 counterexample: minifying "/ /" yields "//" (dropping the space
juxtaposes the two slashes into a comment opener that was not there), and
minifying that output again yields the empty string, so applying Minify
to an already-minified text does not always leave it unchanged. -/
theorem claim_C7_counterexample :
    cy_p64_cJSON_Minify [47, 32, 47] = some [47, 47] ∧
    cy_p64_cJSON_Minify [47, 47] = some [] ∧
    (some [] : Option (List Nat)) ≠ some [47, 47] := by
  refine ⟨?_, ?_, by simp⟩
  · simp [cy_p64_cJSON_Minify]
  · simp [cy_p64_cJSON_Minify, minify_skipLine, List.dropWhile]

/-- C7 (corrected): minify is idempotent on every output that contains no
comment opener outside its string literals: if minifying t gives y and y
is free of double-slash and slash-star openers, then minifying y gives y
back unchanged.  The restriction is necessary: deleting whitespace can
juxtapose two bytes into a new comment opener, as in the counterexample
"/ /", whose minified form "//" minifies further to "". -/
theorem claim_C7_minify_idempotent (t y : List Nat)
    (h : cy_p64_cJSON_Minify t = some y) (hnc : minify_noComments y = true) :
    cy_p64_cJSON_Minify y = some y :=
  minify_fixpoint y (minify_output_wsClean t y h) hnc

/-- C7 witness: minifying " 1" gives "1", which is comment-free, and the
theorem returns "1" unchanged on the second pass. -/
theorem claim_C7_witness :
    cy_p64_cJSON_Minify [32, 49] = some [49] ∧
    minify_noComments [49] = true ∧
    cy_p64_cJSON_Minify [49] = some [49] := by
  have h1 : cy_p64_cJSON_Minify [32, 49] = some [49] := by
    simp [cy_p64_cJSON_Minify]
  have h2 : minify_noComments [49] = true := by
    simp [minify_noComments]
  exact ⟨h1, h2, claim_C7_minify_idempotent [32, 49] [49] h1 h2⟩
